import Mathlib

/-!
Verification development for the EvalManus agent/workflow engine.

The definitions below are a shallow embedding of the Python source:
  - src/app/agent/base.py       (BaseAgent: state machine, run loop, stuck detection)
  - src/app/agent/toolcall.py   (ToolCallAgent: act / execute_tool)
  - src/app/workflow/base.py    (WorkflowNode, WorkflowDefinition.get_execution_order)
  - src/app/workflow/executor.py (ManusWorkflowExecutor)

Python dicts are modelled as insertion-ordered association lists, machine
behaviour that depends on external collaborators (the LLM backend, json
parsing, concrete tools, the per-node agent construction) is abstracted
into explicit function parameters, and async control flow is modelled by
the sequential order of the single-threaded event loop.
-/

set_option maxHeartbeats 1600000

namespace EvalManus

/-! ## Association-list model of Python dict
Insertion-ordered; keys are unique whenever the list is built with `dset`. -/

def dlookup {α : Type} : List (String × α) → String → Option α
  | [], _ => none
  | (k, v) :: rest, key => if k = key then some v else dlookup rest key

def dcontains {α : Type} (m : List (String × α)) (k : String) : Bool :=
  (dlookup m k).isSome

/-- Python dict assignment: overwrite the binding in place if the key
exists, otherwise append a new binding. -/
def dset {α : Type} : List (String × α) → String → α → List (String × α)
  | [], key, v => [(key, v)]
  | (k, w) :: rest, key, v =>
      if k = key then (k, v) :: rest else (k, w) :: dset rest key v

/-- Modify the value bound to an existing key; a missing key is left
untouched.  (At such a call the Python source would raise KeyError;
every call site in this embedding is guarded so that the key is
present.) -/
def dmodify {α : Type} : List (String × α) → String → (α → α) → List (String × α)
  | [], _, _ => []
  | (k, w) :: rest, key, f =>
      if k = key then (k, f w) :: rest else (k, w) :: dmodify rest key f

/-- Python dict.update: every entry of `other` is assigned into `m`,
so entries of `other` overwrite entries of `m` with the same key. -/
def dupdate {α : Type} (m other : List (String × α)) : List (String × α) :=
  other.foldl (fun acc kv => dset acc kv.1 kv.2) m

def dkeys {α : Type} (m : List (String × α)) : List String := m.map Prod.fst

/-! ## Agent core (src/app/agent/base.py)

`Message`/`Memory`/`AgentState` live in app/schema.py, which is not part
of the sources; they are modelled from their use sites in base.py and
from the spec data model (role string, optional text content). -/

inductive AgentState where
  | idle
  | running
  | finished
  | error
deriving DecidableEq, Repr

structure Message where
  role : String
  content : Option String
deriving DecidableEq, Repr

/-- Python truthiness test `not content` for an Optional[str]. -/
def contentFalsy : Option String → Bool
  | none => true
  | some s => s = ""

/-- Python str() of an Optional[str], as an f-string renders it
(None prints as "None"). -/
def optStr : Option String → String
  | none => "None"
  | some s => s

/-- Agent fields used by BaseAgent.run / is_stuck / handle_stuck_state. -/
structure AgentCore where
  state : AgentState
  current_step : Nat
  max_steps : Nat
  duplicate_threshold : Nat
  memory : List Message
  next_step_prompt : Option String
deriving DecidableEq, Repr

/-- BaseAgent.is_stuck: fewer than two messages, or a falsy latest
content, means not stuck; otherwise count the messages before the last
whose role is "assistant" and whose content equals the latest content,
and compare against the duplicate threshold.  (The reversal in the
source does not change the count.) -/
def is_stuck (a : AgentCore) : Bool :=
  if a.memory.length < 2 then false
  else
    match a.memory.getLast? with
    | none => false
    | some last =>
      if contentFalsy last.content then false
      else
        let duplicate_count :=
          (a.memory.dropLast.filter
            (fun m => m.role = "assistant" && m.content = last.content)).length
        decide (a.duplicate_threshold ≤ duplicate_count)

/-- The fixed directive of BaseAgent.handle_stuck_state (the Python
literal continues over a line break, keeping the indentation). -/
def stuck_prompt : String :=
  "        观察到重复响应。考虑新策略并避免重复已尝试的无效路径。"

/-- BaseAgent.handle_stuck_state: prepend the directive to the
next-step prompt (an absent prompt renders as "None" in the f-string). -/
def handle_stuck_state (a : AgentCore) : AgentCore :=
  { a with next_step_prompt := some (stuck_prompt ++ "\n" ++ optStr a.next_step_prompt) }

/-! ## state_context (BaseAgent.state_context)

The context manager sets the new state, runs the body, forces ERROR on
an uncaught fault, and in the finally block restores the previous state
unless the state at that point is FINISHED. -/

/-- Outcome of the body of the `async with state_context(...)` block:
either a normal return or an uncaught fault, each carrying the agent
state at that moment. -/
inductive BodyOutcome where
  | normal (s : AgentState)
  | fault (s : AgentState) (e : String)
deriving DecidableEq, Repr

/-- State observed right after the try/except part of state_context:
the except clause overwrites it with ERROR on a fault. -/
def state_context_body_state : BodyOutcome → AgentState
  | .normal s => s
  | .fault _ _ => .error

/-- The finally block of state_context: restore the previous state
unless the current state is FINISHED. -/
def state_context_restore (previous s : AgentState) : AgentState :=
  if s ≠ .finished then previous else s

/-- Net effect of leaving state_context: the final agent state and the
re-raised fault, if any. -/
def state_context_exit (previous : AgentState) (o : BodyOutcome) :
    AgentState × Option String :=
  (state_context_restore previous (state_context_body_state o),
   match o with
   | .normal _ => none
   | .fault _ e => some e)

/-! ## BaseAgent.run -/

/-- One `step()` of a concrete agent: either a new agent plus the step
result string, or an uncaught fault (carrying the agent at the fault
point and the error text).  Subclass behaviour is abstracted into this
function parameter. -/
inductive StepOutcome where
  | ok (a : AgentCore) (msg : String)
  | fault (a : AgentCore) (e : String)

/-- Result of the while loop inside BaseAgent.run, with a ghost counter
of how many times step() was invoked. -/
structure LoopRes where
  agent : AgentCore
  results : List String
  steps : Nat
  fault : Option String
deriving Repr

/-- The while loop of BaseAgent.run: while current_step < max_steps and
state is not FINISHED, increment the counter, run a step, run stuck
detection, and record a per-step summary line.  `fuel` bounds the
unrolling; every theorem below supplies enough fuel for the loop to
reach its exit condition. -/
def runLoop (stepFn : AgentCore → StepOutcome) :
    Nat → AgentCore → List String → Nat → LoopRes
  | 0, a, res, cnt => ⟨a, res, cnt, none⟩
  | fuel + 1, a, res, cnt =>
    if a.current_step < a.max_steps ∧ a.state ≠ .finished then
      let a1 := { a with current_step := a.current_step + 1 }
      match stepFn a1 with
      | .fault a2 e => ⟨a2, res, cnt + 1, some e⟩
      | .ok a2 step_result =>
        let a3 := if is_stuck a2 then handle_stuck_state a2 else a2
        runLoop stepFn fuel a3
          (res ++ ["Step " ++ toString a3.current_step ++ ": " ++ step_result])
          (cnt + 1)
    else ⟨a, res, cnt, none⟩

/-- "\n".flatten(results) if results else "No steps executed" -/
def joinResults : List String → String
  | [] => "No steps executed"
  | r :: rs => rs.foldl (fun acc s => acc ++ "\n" ++ s) r

/-- BaseAgent.run.  Returns either the final agent and the summary
string, or the re-raised fault text together with the agent as left
behind; the extra Nat is the ghost count of executed steps. -/
def run (stepFn : AgentCore → StepOutcome) (a : AgentCore)
    (request : Option String) :
    Except (String × AgentCore) (AgentCore × String) × Nat :=
  if a.state ≠ .idle then
    (.error ("Cannot run agent from state: " ++ toString (repr a.state), a), 0)
  else
    let a0 := match request with
      | some r => { a with memory := a.memory ++ [Message.mk "user" (some r)] }
      | none => a
    let previous := a0.state
    let a1 := { a0 with state := .running }
    let lr := runLoop stepFn (a1.max_steps + 1) a1 [] 0
    match lr.fault with
    | some e =>
      -- uncaught fault: except clause sets ERROR, finally restores
      let afterExcept := { lr.agent with state := AgentState.error }
      let final := { afterExcept with
        state := state_context_restore previous afterExcept.state }
      (.error (e, final), lr.steps)
    | none =>
      let a2 := lr.agent
      let (a3, results) :=
        if a2.max_steps ≤ a2.current_step then
          ({ a2 with current_step := 0, state := .idle },
           lr.results ++
             ["Terminated: Reached max steps (" ++ toString a2.max_steps ++ ")"])
        else (a2, lr.results)
      let a4 := { a3 with state := state_context_restore previous a3.state }
      (.ok (a4, joinResults results), lr.steps)

/-! ## Workflow graph model (src/app/workflow/base.py) -/

/-- WorkflowNode (the fields the executor reads; `config`, `name` and
the metadata-style fields that never influence control flow are kept
only where a claim mentions them). -/
structure WorkflowNode where
  id : String
  name : String
  agent_type : String
  dependencies : List String
  condition : Option String
  parallel_group : Option String
  timeout : Option Nat
  retry_count : Nat
deriving DecidableEq, Repr

/-- A convenience constructor with the pydantic defaults of the
optional fields. -/
def mkNode (id : String) (deps : List String) : WorkflowNode :=
  ⟨id, id, "agent", deps, none, none, none, 0⟩

/-- in_degree = \x7bnode.id: 0 for node in self.nodes\x7d (dict
comprehension: duplicate ids collapse onto the first insertion). -/
def initInDegree (nodes : List WorkflowNode) : List (String × Int) :=
  nodes.foldl (fun m n => dset m n.id 0) []

/-- graph = \x7bnode.id: [] for node in self.nodes\x7d -/
def initGraph (nodes : List WorkflowNode) : List (String × List String) :=
  nodes.foldl (fun m n => dset m n.id []) []

/-- The edge-building loop of get_execution_order:
for node in nodes: for dep in node.dependencies:
graph[dep].append(node.id); in_degree[node.id] += 1. -/
def buildMaps (nodes : List WorkflowNode) :
    List (String × List String) × List (String × Int) :=
  nodes.foldl
    (fun gd n =>
      n.dependencies.foldl
        (fun gd dep =>
          (dmodify gd.1 dep (fun l => l ++ [n.id]),
           dmodify gd.2 n.id (fun d => d + 1)))
        gd)
    (initGraph nodes, initInDegree nodes)

/-- in_degree[neighbor] -= 1; if in_degree[neighbor] == 0:
next_level.append(neighbor).  The state is the in-degree map together
with next_level. -/
def decrNeighbor (st : List (String × Int) × List String) (neighbor : String) :
    List (String × Int) × List String :=
  let d := (dlookup st.1 neighbor).getD 0 - 1
  (dset st.1 neighbor d, if d = 0 then st.2 ++ [neighbor] else st.2)

/-- The body of one while-iteration: for node_id in current_level:
for neighbor in graph[node_id]: decrement, collecting next_level. -/
def processLevel (graph : List (String × List String))
    (inDeg : List (String × Int)) (current : List String) :
    List (String × Int) × List String :=
  current.foldl
    (fun st node_id => ((dlookup graph node_id).getD []).foldl decrNeighbor st)
    (inDeg, [])

/-- The while loop of get_execution_order.  `fuel` bounds the number of
iterations; `nodes.length + 1` is always sufficient because every
non-final iteration removes at least one node id that can never re-enter
a level (its in-degree strictly decreases past zero). -/
def kahnLoop (graph : List (String × List String)) :
    Nat → List (String × Int) → List String → List (List String)
  | 0, _, _ => []
  | fuel + 1, inDeg, current =>
    if current.isEmpty then []
    else
      let (inDeg1, next) := processLevel graph inDeg current
      current :: kahnLoop graph fuel inDeg1 next

/-- WorkflowDefinition.get_execution_order. -/
def get_execution_order (nodes : List WorkflowNode) : List (List String) :=
  let (graph, inDeg) := buildMaps nodes
  let current0 := (inDeg.filter (fun p => p.2 = 0)).map Prod.fst
  kahnLoop graph (nodes.length + 1) inDeg current0

/-- WorkflowDefinition.validate_dependencies: every dependency id must
name a node of the definition (raises ValueError otherwise). -/
def validate_dependencies (nodes : List WorkflowNode) : Bool :=
  nodes.all (fun n => n.dependencies.all
    (fun dep => (nodes.map WorkflowNode.id).contains dep))

/-! ## Workflow executor (src/app/workflow/executor.py)

Node results are Python values (Dict[str, Any] in practice); `PyVal`
models the values the claims mention: scalars and one flat dict, as in
the skipped-node marker. -/

inductive PyLeaf where
  | pbool (b : Bool)
  | pint (n : Int)
  | pstr (s : String)
deriving DecidableEq, Repr

inductive PyVal where
  | leaf (v : PyLeaf)
  | pdict (d : List (String × PyLeaf))
deriving DecidableEq, Repr

/-- The literal returned for a skipped node:
\x7b"skipped": True, "reason": "condition_not_met"\x7d. -/
def skippedResult : PyVal :=
  .pdict [("skipped", .pbool true), ("reason", .pstr "condition_not_met")]

inductive WorkflowState where
  | pending
  | running
  | paused
  | completed
  | failed
  | cancelled
deriving DecidableEq, Repr

/-- WorkflowExecutionContext (timestamps dropped; error_info reduced to
the error text, which is all the claims inspect). -/
structure ExecContext where
  state : WorkflowState
  current_node : Option String
  node_results : List (String × PyVal)
  global_data : List (String × PyVal)
  error_info : Option String
deriving DecidableEq, Repr

def initContext : ExecContext :=
  ⟨.pending, none, [], [], none⟩

/-- External collaborators of the executor, abstracted:
  - `createOk`: whether _create_agent succeeds for the node (an
    unregistered agent_type raises ValueError);
  - `runAgent`: agent.run_in_workflow on the prepared input, composed
    with the optional asyncio timeout (an error models both an agent
    fault and a timeout);
  - `evalCond`: Python eval of a condition string against
    \x7bresults, global_data\x7d (an error models a raised exception,
    e.g. a KeyError for a not-yet-populated result). -/
structure Backend where
  createOk : WorkflowNode → Except String Unit
  runAgent : WorkflowNode → List (String × PyVal) → Except String PyVal
  evalCond : String → List (String × PyVal) → List (String × PyVal) →
    Except String Bool

/-- ManusWorkflowExecutor._check_condition: `if not node.condition:
return True` — a falsy condition (None or the empty string) means True;
otherwise the expression is evaluated and an evaluation fault is logged
and treated as False. -/
def check_condition (be : Backend) (ctx : ExecContext) (node : WorkflowNode) :
    Bool :=
  match node.condition with
  | none => true
  | some c =>
    if c = "" then true
    else
      match be.evalCond c ctx.node_results ctx.global_data with
      | .ok b => b
      | .error _ => false

/-- The dependency loop of _prepare_input_data: for dep in
node.dependencies, if dep is in node_results then
input_data["from_" + dep] = node_results[dep]. -/
def depInputs (results : List (String × PyVal)) :
    List (String × PyVal) → List String → List (String × PyVal)
  | acc, [] => acc
  | acc, dep :: rest =>
    match dlookup results dep with
    | some r => depInputs results (dset acc ("from_" ++ dep) r) rest
    | none => depInputs results acc rest

/-- ManusWorkflowExecutor._prepare_input_data: one "from_<dep>" entry
per dependency whose result is present, then global data merged on top. -/
def prepare_input_data (ctx : ExecContext) (node : WorkflowNode) :
    List (String × PyVal) :=
  dupdate (depInputs ctx.node_results [] node.dependencies) ctx.global_data

/-- One attempt at a node: _create_agent, _prepare_input_data, then
_execute_with_timeout.  The Nat is the ghost count of Execution Unit
instances constructed. -/
def attemptOnce (be : Backend) (ctx : ExecContext) (node : WorkflowNode) :
    Except String PyVal × Nat :=
  match be.createOk node with
  | .error e => (.error e, 0)
  | .ok _ => (be.runAgent node (prepare_input_data ctx node), 1)

instance {ε α : Type} [DecidableEq ε] [DecidableEq α] :
    DecidableEq (Except ε α) := fun x y =>
  match x, y with
  | .ok a, .ok b =>
    if h : a = b then .isTrue (by rw [h]) else .isFalse (by simp [h])
  | .error a, .error b =>
    if h : a = b then .isTrue (by rw [h]) else .isFalse (by simp [h])
  | .ok _, .error _ => .isFalse (by simp)
  | .error _, .ok _ => .isFalse (by simp)

/-- Ghost-instrumented outcome of _execute_single_node: the value the
coroutine returns (or the fault it raises), how many Execution Unit
instances were constructed, and how many attempts were made. -/
structure NodeOutcome where
  result : Except String PyVal
  creations : Nat
  attempts : Nat
deriving DecidableEq, Repr

/-- The retry loop `for retry in range(retry_count)` with the remaining
number of retries as the recursion measure: on the last retry a failure
is re-raised. -/
def retryLoop (be : Backend) (ctx : ExecContext) (node : WorkflowNode) :
    Nat → NodeOutcome
  | 0 => ⟨.error "", 0, 0⟩   -- not reached: the loop is entered only with retry_count > 0
  | 1 =>
    let (r, c) := attemptOnce be ctx node
    ⟨r, c, 1⟩
  | n + 2 =>
    match attemptOnce be ctx node with
    | (.ok r, c) => ⟨.ok r, c, 1⟩
    | (.error _, c) =>
      let rest := retryLoop be ctx node (n + 1)
      ⟨rest.result, c + rest.creations, rest.attempts + 1⟩

/-- ManusWorkflowExecutor._execute_single_node.  Also returns the
context, whose current_node field the coroutine mutates. -/
def execute_single_node (be : Backend) (ctx : ExecContext)
    (node : WorkflowNode) : NodeOutcome × ExecContext :=
  let ctx := { ctx with current_node := some node.id }
  if ¬ check_condition be ctx node then
    (⟨.ok skippedResult, 0, 0⟩, ctx)
  else
    match attemptOnce be ctx node with
    | (.ok r, c) => (⟨.ok r, c, 1⟩, ctx)
    | (.error e, c) =>
      if 0 < node.retry_count then
        let rest := retryLoop be ctx node node.retry_count
        (⟨rest.result, c + rest.creations, rest.attempts + 1⟩, ctx)
      else
        (⟨.error e, c, 1⟩, ctx)

/-- BaseWorkflow.get_node_by_id: first node of the definition with the
given id, if any. -/
def get_node_by_id (nodes : List WorkflowNode) (node_id : String) :
    Option WorkflowNode :=
  nodes.find? (fun n => n.id = node_id)

/-- Python truthiness of the parallel_group field
(`if node.parallel_group:`): None and "" are falsy. -/
def pgTruthy : Option String → Bool
  | none => false
  | some s => s ≠ ""

/-- The grouping loop of _execute_level: nodes with a truthy
parallel_group are appended to their group (dict insertion order),
the rest to individual_nodes. -/
def splitLevel (found : List WorkflowNode) :
    List (String × List WorkflowNode) × List WorkflowNode :=
  found.foldl
    (fun st n =>
      match n.parallel_group with
      | some g =>
        if g ≠ "" then
          (match dlookup st.1 g with
           | some l => dset st.1 g (l ++ [n])
           | none => dset st.1 g [n],
           st.2)
        else (st.1, st.2 ++ [n])
      | none => (st.1, st.2 ++ [n]))
    ([], [])

/-- ManusWorkflowExecutor._execute_parallel_group: evaluate the
conditions while building the task list, run the selected node tasks
(event-loop order), then copy every non-exception result into
node_results; a failing member is only logged. -/
def execute_parallel_group (be : Backend) (ctx : ExecContext)
    (group_nodes : List WorkflowNode) : ExecContext :=
  let selected := group_nodes.filter (fun n => check_condition be ctx n)
  let (ctx1, outcomes) := selected.foldl
    (fun (st : ExecContext × List (String × Except String PyVal)) n =>
      let (o, ctx2) := execute_single_node be st.1 n
      (ctx2, st.2 ++ [(n.id, o.result)]))
    (ctx, [])
  outcomes.foldl
    (fun ctx p =>
      match p.2 with
      | .ok r => { ctx with node_results := dset ctx.node_results p.1 r }
      | .error _ => ctx)
    ctx1

/-- ManusWorkflowExecutor._execute_level: group the nodes of the level,
create the group tasks and then the individual-node tasks, and await
them with asyncio.gather(..., return_exceptions=True).  The gather
return value is unused, so the results and exceptions of the
individual-node tasks are discarded here. -/
def execute_level (be : Backend) (nodes : List WorkflowNode)
    (ctx : ExecContext) (node_ids : List String) : ExecContext :=
  let found := node_ids.filterMap (get_node_by_id nodes)
  let (groups, individual) := splitLevel found
  let ctx1 := groups.foldl
    (fun ctx g => execute_parallel_group be ctx g.2) ctx
  individual.foldl (fun ctx n => (execute_single_node be ctx n).2) ctx1

/-- The level loop of ManusWorkflowExecutor.execute, with the
cooperative break when the context was paused or cancelled. -/
def runLevels (be : Backend) (nodes : List WorkflowNode) :
    List (List String) → ExecContext → ExecContext
  | [], ctx => ctx
  | l :: rest, ctx =>
    let ctx1 := execute_level be nodes ctx l
    if ctx1.state = .paused ∨ ctx1.state = .cancelled then ctx1
    else runLevels be nodes rest ctx1

/-- ManusWorkflowExecutor.execute, for an already validated definition
(the constructor runs validate_dependencies).  None of the awaited
level tasks can propagate a fault through the gather call, so the
except branch that would set FAILED is unreachable and execute always
returns the context normally. -/
def executeW (be : Backend) (nodes : List WorkflowNode)
    (ctx0 : ExecContext) : ExecContext :=
  let ctx := { ctx0 with state := WorkflowState.running }
  let ctx1 := runLevels be nodes (get_execution_order nodes) ctx
  if ctx1.state = .running then { ctx1 with state := .completed } else ctx1

/-! ## Tool-call agent (src/app/agent/toolcall.py)

`ToolCall` comes from app/schema.py (not under the sources) and is
modelled from the spec data model: id, tool name, serialized argument
payload.  The json library and the tools themselves are external and
appear as function parameters. -/

structure ToolCallFn where
  name : String
  arguments : Option String
deriving DecidableEq, Repr

structure ToolCall where
  id : String
  function : ToolCallFn
deriving DecidableEq, Repr

/-- `command.function.arguments or "\x7b\x7d"`: None and "" fall back
to the empty JSON object. -/
def argsOrEmpty : Option String → String
  | none => "\x7b\x7d"
  | some s => if s = "" then "\x7b\x7d" else s

/-- External collaborators of execute_tool:
  - `tool_names`: the keys of available_tools.tool_map;
  - `parseJson`: json.loads (none models a JSONDecodeError);
  - `execTool`: available_tools.execute composed with str() rendering of
    the ToolResult; `.ok (some s)` is a truthy result rendered as `s`,
    `.ok none` a falsy result, `.error e` an exception raised by the
    tool machinery. -/
structure ToolEnv where
  tool_names : List String
  parseJson : String → Option (List (String × PyVal))
  execTool : String → List (String × PyVal) → Except String (Option String)

/-- ToolCallAgent._is_special_tool: case-insensitive membership in
special_tool_names. -/
def is_special_tool (special : List String) (name : String) : Bool :=
  (special.map String.toLower).contains name.toLower

/-- ToolCallAgent.execute_tool.  Returns the observation string and the
(possibly updated) agent state; every error path is converted to a
textual result, so no fault escapes this function. -/
def execute_tool (env : ToolEnv) (special : List String) (st : AgentState)
    (cmd : ToolCall) : String × AgentState :=
  if cmd.function.name = "" then ("错误: 无效的命令格式", st)
  else
    let name := cmd.function.name
    if ¬ env.tool_names.contains name then
      ("错误: 未知工具\x27" ++ name ++ "\x27", st)
    else
      match env.parseJson (argsOrEmpty cmd.function.arguments) with
      | none => ("错误: 解析" ++ name ++ "的参数时出错: 无效的JSON格式", st)
      | some args =>
        match env.execTool name args with
        | .error e => ("错误: ⚠️ 工具\x27" ++ name ++ "\x27遇到了问题: " ++ e, st)
        | .ok r =>
          let st1 := if is_special_tool special name then AgentState.finished else st
          (match r with
           | some s => "观察到执行的命令`" ++ name ++ "`的输出:\n" ++ s
           | none => "命令`" ++ name ++ "`完成，没有输出", st1)

inductive ToolChoice where
  | auto
  | required
  | choiceNone
deriving DecidableEq, Repr

/-- The agent fields that ToolCallAgent.act reads and writes. -/
structure ActState where
  state : AgentState
  memory : List Message
deriving DecidableEq, Repr

/-- `self.messages[-1].content or "没有内容或命令可执行"` -/
def lastContentOr (memory : List Message) : String :=
  match memory.getLast? with
  | some m =>
    match m.content with
    | some c => if c = "" then "没有内容或命令可执行" else c
    | none => "没有内容或命令可执行"
  | none => "没有内容或命令可执行"

/-- ToolCallAgent.act: with no tool calls, REQUIRED mode raises
TOOL_CALL_REQUIRED and otherwise the last message content is returned;
with tool calls, each is executed in order, its (optionally truncated)
observation appended to memory as a tool message, and the observations
joined by a blank line.  (An IndexError on empty memory cannot occur
here: think always appends a message before act runs.) -/
def act (env : ToolEnv) (special : List String) (max_observe : Option Nat)
    (tool_choices : ToolChoice) (st : ActState) (tool_calls : List ToolCall) :
    Except String (ActState × String) :=
  if tool_calls.isEmpty then
    if tool_choices = .required then .error "需要工具调用但未提供"
    else .ok (st, lastContentOr st.memory)
  else
    let (st1, results) := tool_calls.foldl
      (fun (acc : ActState × List String) cmd =>
        let (result0, newState) := execute_tool env special acc.1.state cmd
        let result := match max_observe with
          | some k => if k ≠ 0 then result0.take k else result0
          | none => result0
        ({ state := newState,
           memory := acc.1.memory ++ [Message.mk "tool" (some result)] },
         acc.2 ++ [result]))
      (st, [])
    .ok (st1, String.intercalate "\n\n" results)

/-! ## Concrete instances used by the claim theorems -/

/-- A backend whose agents always succeed, returning a string tagged
with the node id. -/
def beOk : Backend :=
  ⟨fun _ => .ok (),
   fun n _ => .ok (.leaf (.pstr ("res_" ++ n.id))),
   fun _ _ _ => .ok true⟩

/-- A backend whose agent runs always fail. -/
def beBoom : Backend :=
  ⟨fun _ => .ok (), fun _ _ => .error "boom", fun _ _ _ => .ok true⟩

/-- The three-node DAG of the end-to-end property: A (no deps),
B (dep A), C (deps A, B). -/
def dagABC : List WorkflowNode :=
  [mkNode "A" [], mkNode "B" ["A"], mkNode "C" ["A", "B"]]

/-- A single node with retryCount = 2. -/
def nodeRetry2 : WorkflowNode :=
  { mkNode "X" [] with retry_count := 2 }

/-- A two-node dependency cycle (both dependency ids exist, so
validate_dependencies accepts it). -/
def dagCycle : List WorkflowNode :=
  [mkNode "A" ["B"], mkNode "B" ["A"]]

/-- Memory with two identical assistant messages followed by a user
message with the same content. -/
def memLastUser : List Message :=
  [⟨"assistant", some "x"⟩, ⟨"assistant", some "x"⟩, ⟨"user", some "x"⟩]

def agentLastUser : AgentCore :=
  ⟨.idle, 0, 10, 2, memLastUser, none⟩

/-- A backend whose condition evaluation always raises (e.g. a KeyError
for a result that has not been populated yet). -/
def beKeyErr : Backend :=
  ⟨fun _ => .ok (),
   fun n _ => .ok (.leaf (.pstr ("res_" ++ n.id))),
   fun _ _ _ => .error "KeyError"⟩

/-- A node guarded by a condition that reads a not-yet-populated
result. -/
def nodeCond : WorkflowNode :=
  { mkNode "S" [] with
      condition := some "results[\x27A\x27][\x27x\x27] == 1" }

/-- Context with one populated dependency result and one global entry. -/
def ctxC10 : ExecContext :=
  { initContext with
      node_results := [("A", .leaf (.pint 1))],
      global_data := [("g", .leaf (.pint 7))] }

/-- A node depending on A (result present) and B (result absent). -/
def nodeC10 : WorkflowNode := mkNode "N" ["A", "B"]

/-- Whether dependency d contributes the key k to the input map: its
derived key "from_" ++ d is k and its result is present (used to state
the characterization of _prepare_input_data). -/
def depKeyHit (results : List (String × PyVal)) (k : String) (d : String) :
    Bool :=
  decide ("from_" ++ d = k) && (dlookup results d).isSome

/-- A registry with a single tool and a json parser that accepts
everything; its execTool is never reached in the witness. -/
def envC8 : ToolEnv :=
  ⟨["x_tool"], fun _ => some [], fun _ _ => .ok none⟩

/-- A tool call naming an unregistered tool. -/
def cmdC8 : ToolCall := ⟨"call_1", ⟨"does_not_exist", some "\x7b\x7d"⟩⟩

def stC8 : ActState := ⟨.running, []⟩

/-- Well-behaved step functions for the max-steps claim: every step
returns normally (no fault), never reaches FINISHED, and leaves the
step counters alone (Python step subclasses only act on memory and
tools). -/
def TameStep (stepFn : AgentCore → StepOutcome) : Prop :=
  ∀ b, ∃ b2 m, stepFn b = .ok b2 m ∧ b2.state ≠ .finished ∧
    b2.current_step = b.current_step ∧ b2.max_steps = b.max_steps

/-- A concrete tame step function. -/
def stepC5 : AgentCore → StepOutcome :=
  fun b => .ok { b with state := .running } "w"

/-- An idle agent with maxSteps = 3. -/
def agentC5 : AgentCore := ⟨.idle, 0, 3, 2, [], none⟩

/-- A rank function witnessing the acyclicity of the A/B/C DAG. -/
def rankABC : String → Nat :=
  fun s => if s = "A" then 0 else if s = "B" then 1 else 2

/-! ### Analysis-side notions for the Kahn development -/

def nodeIds (nodes : List WorkflowNode) : List String :=
  nodes.map WorkflowNode.id

/-- All dependency edges (dep, node.id) in source iteration order. -/
def edgeList (nodes : List WorkflowNode) : List (String × String) :=
  nodes.flatMap (fun n => n.dependencies.map (fun d => (d, n.id)))

/-- Targets of the edges leaving x, in edge order. -/
def targetsOf (edges : List (String × String)) (x : String) : List String :=
  (edges.filter (fun e => e.1 = x)).map Prod.snd

/-- Number of edges into x whose source is not yet emitted. -/
def pendingInDegree (edges : List (String × String)) (emitted : List String)
    (x : String) : Nat :=
  (edges.filter (fun e => e.2 = x && decide (e.1 ∉ emitted))).length

/-- The edge-building loop refactored as one fold over the edge list
(proved equal to buildMaps below). -/
def edgeFold (edges : List (String × String))
    (gd : List (String × List String) × List (String × Int)) :
    List (String × List String) × List (String × Int) :=
  edges.foldl
    (fun gd e =>
      (dmodify gd.1 e.1 (fun l => l ++ [e.2]),
       dmodify gd.2 e.2 (fun d => d + 1)))
    gd

/-- The loop invariant of the while loop of get_execution_order, over
the abstract edge list: inDeg stores the pending in-degrees, every
emitted or current node has pending in-degree 0 (its sources are all
emitted), every other node has a pending source, and the processed
nodes are distinct ids of the definition. -/
structure KahnInv (edges : List (String × String)) (ids : List String)
    (inDeg : List (String × Int)) (current emitted : List String) :
    Prop where
  keysSub : ∀ x, x ∉ ids → dlookup inDeg x = none
  nd : (emitted ++ current).Nodup
  sub : ∀ x ∈ emitted ++ current, x ∈ ids
  count : ∀ x ∈ ids,
    dlookup inDeg x = some ((pendingInDegree edges emitted x : Int))
  zero : ∀ x ∈ emitted ++ current, pendingInDegree edges emitted x = 0
  pos : ∀ x ∈ ids, x ∉ emitted → x ∉ current →
    1 ≤ pendingInDegree edges emitted x

/-! # Theorems -/

/-! ## Association-list lemmas -/

theorem dkeys_nil {α : Type} : dkeys ([] : List (String × α)) = [] := rfl

theorem dkeys_cons {α : Type} (k : String) (v : α) (rest : List (String × α)) :
    dkeys ((k, v) :: rest) = k :: dkeys rest := rfl

theorem dlookup_dset {α : Type} (m : List (String × α)) (k k2 : String)
    (v : α) :
    dlookup (dset m k v) k2 = if k = k2 then some v else dlookup m k2 := by
  induction m with
  | nil =>
    by_cases h : k = k2 <;> simp [dset, dlookup, h]
  | cons p rest ih =>
    obtain ⟨k0, v0⟩ := p
    by_cases h0 : k0 = k
    · subst h0
      by_cases h2 : k0 = k2
      · subst h2
        simp [dset, dlookup]
      · simp [dset, dlookup, h2]
    · by_cases h2 : k0 = k2
      · subst h2
        have hk : ¬ k = k0 := fun h => h0 h.symm
        simp [dset, dlookup, h0, hk]
      · simp [dset, dlookup, h0, h2, ih]

theorem dlookup_dmodify {α : Type} (m : List (String × α)) (k k2 : String)
    (f : α → α) :
    dlookup (dmodify m k f) k2 =
      if k = k2 then (dlookup m k).map f else dlookup m k2 := by
  induction m with
  | nil =>
    by_cases h : k = k2 <;> simp [dmodify, dlookup, h]
  | cons p rest ih =>
    obtain ⟨k0, v0⟩ := p
    by_cases h0 : k0 = k
    · subst h0
      by_cases h2 : k0 = k2
      · subst h2
        simp [dmodify, dlookup]
      · simp [dmodify, dlookup, h2]
    · by_cases h2 : k0 = k2
      · subst h2
        have hk : ¬ k = k0 := fun h => h0 h.symm
        simp [dmodify, dlookup, h0, hk]
      · simp [dmodify, dlookup, h0, h2, ih]

theorem dkeys_dmodify {α : Type} (m : List (String × α)) (k : String)
    (f : α → α) : dkeys (dmodify m k f) = dkeys m := by
  induction m with
  | nil => rfl
  | cons p rest ih =>
    obtain ⟨k0, v0⟩ := p
    by_cases h0 : k0 = k
    · simp [dmodify, h0, dkeys_cons]
    · simp [dmodify, h0, dkeys_cons, ih]

theorem dlookup_isSome_iff {α : Type} (m : List (String × α)) (k : String) :
    (dlookup m k).isSome = true ↔ k ∈ dkeys m := by
  induction m with
  | nil => simp [dlookup, dkeys_nil]
  | cons p rest ih =>
    obtain ⟨k0, v0⟩ := p
    by_cases h0 : k0 = k
    · subst h0
      simp [dlookup, dkeys_cons]
    · have hk : ¬ k = k0 := fun h => h0 h.symm
      simp [dlookup, dkeys_cons, h0, hk, ih]

theorem dlookup_eq_none_of_not_mem {α : Type} {m : List (String × α)}
    {k : String} (h : k ∉ dkeys m) : dlookup m k = none := by
  cases hl : dlookup m k with
  | none => rfl
  | some v =>
    exact absurd ((dlookup_isSome_iff m k).1 (by simp [hl])) h

theorem mem_dkeys_dset {α : Type} (m : List (String × α)) (k k2 : String)
    (v : α) : k2 ∈ dkeys (dset m k v) ↔ k2 ∈ dkeys m ∨ k2 = k := by
  rw [← dlookup_isSome_iff, ← dlookup_isSome_iff, dlookup_dset]
  by_cases h : k = k2
  · subst h
    simp
  · have hk : ¬ k2 = k := fun hh => h hh.symm
    simp [h, hk]

theorem dupdate_lookup {α : Type} (other : List (String × α)) :
    ∀ (m : List (String × α)) (k : String), (dkeys other).Nodup →
    dlookup (dupdate m other) k =
      match dlookup other k with
      | some v => some v
      | none => dlookup m k := by
  induction other with
  | nil => intro m k _; simp [dupdate, dlookup]
  | cons p rest ih =>
    intro m k hnd
    obtain ⟨k0, v0⟩ := p
    rw [dkeys_cons, List.nodup_cons] at hnd
    have hstep : dupdate m ((k0, v0) :: rest) = dupdate (dset m k0 v0) rest := by
      simp [dupdate]
    rw [hstep, ih (dset m k0 v0) k hnd.2]
    by_cases h0 : k0 = k
    · subst h0
      rw [dlookup_eq_none_of_not_mem hnd.1]
      simp [dlookup, dlookup_dset]
    · have hk : ¬ k = k0 := fun h => h0 h.symm
      cases hr : dlookup rest k <;>
        simp [dlookup, h0, hk, dlookup_dset, hr]

/-- Cancellation of the fixed "from_" prefix. -/
theorem from_prefix_inj {d1 d2 : String}
    (h : "from_" ++ d1 = "from_" ++ d2) : d1 = d2 := by
  apply String.ext
  have h2 := congrArg String.data h
  simp only [String.data_append] at h2
  exact List.append_cancel_left h2

/-- Extensional description of the dependency loop of
_prepare_input_data: the first dependency whose derived key matches and
whose result is present decides the value (later overwrites carry the
same value, since node_results is fixed during the loop). -/
theorem depInputs_lookup (results : List (String × PyVal)) :
    ∀ (deps : List String) (acc : List (String × PyVal)) (k : String),
    dlookup (depInputs results acc deps) k =
      match deps.find? (depKeyHit results k) with
      | some d => dlookup results d
      | none => dlookup acc k := by
  intro deps
  induction deps with
  | nil => intro acc k; simp [depInputs]
  | cons d0 rest ih =>
    intro acc k
    cases hr0 : dlookup results d0 with
    | none =>
      have hstep : depInputs results acc (d0 :: rest) =
          depInputs results acc rest := by
        simp [depInputs, hr0]
      have hfind : (d0 :: rest).find? (depKeyHit results k) =
          rest.find? (depKeyHit results k) :=
        List.find?_cons_of_neg _ (by simp [depKeyHit, hr0])
      rw [hstep, hfind]
      exact ih acc k
    | some r0 =>
      have hstep : depInputs results acc (d0 :: rest) =
          depInputs results (dset acc ("from_" ++ d0) r0) rest := by
        simp [depInputs, hr0]
      by_cases hk : "from_" ++ d0 = k
      · have hfind : (d0 :: rest).find? (depKeyHit results k) = some d0 :=
          List.find?_cons_of_pos _ (by simp [depKeyHit, hk, hr0])
        rw [hstep, ih, hfind]
        cases hfr : rest.find? (depKeyHit results k) with
        | none => simp [dlookup_dset, hk, hr0]
        | some d1 =>
          have hpd1 := List.find?_some hfr
          simp only [depKeyHit, Bool.and_eq_true, decide_eq_true_eq] at hpd1
          have : d1 = d0 := from_prefix_inj (hpd1.1.trans hk.symm)
          subst this
          rfl
      · have hfind : (d0 :: rest).find? (depKeyHit results k) =
            rest.find? (depKeyHit results k) :=
          List.find?_cons_of_neg _ (by simp [depKeyHit, hk])
        rw [hstep, ih, hfind]
        cases hfr : rest.find? (depKeyHit results k) with
        | some d1 => rfl
        | none => simp [dlookup_dset, hk]

/-- Full characterization of one lookup into the prepared input map. -/
theorem prepare_input_data_lookup (ctx : ExecContext) (node : WorkflowNode)
    (hg : (dkeys ctx.global_data).Nodup) (k : String) :
    dlookup (prepare_input_data ctx node) k =
      match dlookup ctx.global_data k with
      | some v => some v
      | none =>
        match node.dependencies.find? (depKeyHit ctx.node_results k) with
        | some d => dlookup ctx.node_results d
        | none => none := by
  unfold prepare_input_data
  rw [dupdate_lookup _ _ _ hg]
  cases dlookup ctx.global_data k with
  | some v => rfl
  | none =>
    rw [depInputs_lookup]
    cases node.dependencies.find? (depKeyHit ctx.node_results k) with
    | some d => rfl
    | none => rfl

/-- Claim C10: the input map built for a node holds the key
"from_" ++ d exactly for the dependencies d whose result is present in
the context result map; absent results are silently omitted; and the
global data is merged afterwards, so a global key equal to a
"from_" ++ d key overrides the dependency result. -/
theorem c10_prepare_input_data (ctx : ExecContext) (node : WorkflowNode)
    (hg : (dkeys ctx.global_data).Nodup) :
    (∀ d r, d ∈ node.dependencies →
      dlookup ctx.node_results d = some r →
      dlookup ctx.global_data ("from_" ++ d) = none →
      dlookup (prepare_input_data ctx node) ("from_" ++ d) = some r) ∧
    (∀ d, d ∈ node.dependencies →
      dlookup ctx.node_results d = none →
      dlookup ctx.global_data ("from_" ++ d) = none →
      dlookup (prepare_input_data ctx node) ("from_" ++ d) = none) ∧
    (∀ k v, dlookup ctx.global_data k = some v →
      dlookup (prepare_input_data ctx node) k = some v) ∧
    (∀ k, dlookup (prepare_input_data ctx node) k ≠ none →
      dlookup ctx.global_data k ≠ none ∨
      ∃ d, d ∈ node.dependencies ∧ k = "from_" ++ d ∧
        dlookup ctx.node_results d ≠ none) := by
  refine ⟨?_, ?_, ?_, ?_⟩
  · intro d r hd hr hgl
    rw [prepare_input_data_lookup ctx node hg, hgl]
    have hhit : (node.dependencies.find?
        (depKeyHit ctx.node_results ("from_" ++ d))).isSome := by
      rw [List.find?_isSome]
      exact ⟨d, hd, by simp [depKeyHit, hr]⟩
    obtain ⟨d1, hd1⟩ := Option.isSome_iff_exists.1 hhit
    have hp := List.find?_some hd1
    simp only [depKeyHit, Bool.and_eq_true, decide_eq_true_eq] at hp
    have : d1 = d := from_prefix_inj hp.1
    subst this
    simp [hd1, hr]
  · intro d hd hr hgl
    rw [prepare_input_data_lookup ctx node hg, hgl]
    cases hfr : node.dependencies.find?
        (depKeyHit ctx.node_results ("from_" ++ d)) with
    | none => rfl
    | some d1 =>
      have hp := List.find?_some hfr
      simp only [depKeyHit, Bool.and_eq_true, decide_eq_true_eq] at hp
      have : d1 = d := from_prefix_inj hp.1
      subst this
      rw [hr] at hp
      exact absurd hp.2 (by simp)
  · intro k v hk
    rw [prepare_input_data_lookup ctx node hg, hk]
  · intro k hk
    rw [prepare_input_data_lookup ctx node hg] at hk
    cases hgl : dlookup ctx.global_data k with
    | some v => exact Or.inl (by simp [hgl])
    | none =>
      rw [hgl] at hk
      cases hfr : node.dependencies.find? (depKeyHit ctx.node_results k) with
      | none => rw [hfr] at hk; exact absurd rfl hk
      | some d =>
        have hp := List.find?_some hfr
        simp only [depKeyHit, Bool.and_eq_true, decide_eq_true_eq] at hp
        refine Or.inr ⟨d, List.mem_of_find?_eq_some hfr, hp.1.symm, ?_⟩
        intro hnone
        rw [hnone] at hp
        exact absurd hp.2 (by simp)

/-- Witness for C10 at a concrete node: dependency A with a stored
result appears as from_A, dependency B without one is omitted, and the
global entry g is present. -/
theorem c10_witness :
    dlookup (prepare_input_data ctxC10 nodeC10) ("from_" ++ "A") =
      some (.leaf (.pint 1)) ∧
    dlookup (prepare_input_data ctxC10 nodeC10) ("from_" ++ "B") = none ∧
    dlookup (prepare_input_data ctxC10 nodeC10) "g" =
      some (.leaf (.pint 7)) :=
  ⟨(c10_prepare_input_data ctxC10 nodeC10 (by decide)).1 "A"
      (.leaf (.pint 1)) (by decide) (by decide) (by decide),
   (c10_prepare_input_data ctxC10 nodeC10 (by decide)).2.1 "B"
      (by decide) (by decide) (by decide),
   (c10_prepare_input_data ctxC10 nodeC10 (by decide)).2.2.1 "g"
      (.leaf (.pint 7)) (by decide)⟩

/-- Claim C1: executing the three-node DAG A, B (dep A), C (deps A, B)
with every unit succeeding yields the levels [[A],[B],[C]] and final
state COMPLETED, but the execution context result map stays empty:
_execute_level discards the gather results, so the result of a node
outside any parallel group is never stored under its id.  This
contradicts the claimed three result-map entries (the code bug). -/
theorem c1_results_never_stored :
    get_execution_order dagABC = [["A"], ["B"], ["C"]] ∧
    (executeW beOk dagABC initContext).state = WorkflowState.completed ∧
    (executeW beOk dagABC initContext).node_results = [] := by
  refine ⟨by decide, by decide, by decide⟩

/-- Claim C2: a node with retryCount = 2 whose unit always fails is
attempted exactly 3 times, with a fresh Execution Unit constructed for
each attempt, and the final failure is raised out of
_execute_single_node; but the workflow does not end FAILED: the level
gather swallows the exception and execute finishes COMPLETED with no
error info (the code bug). -/
theorem c2_retries_swallowed :
    (execute_single_node beBoom initContext nodeRetry2).1 =
      ⟨Except.error "boom", 3, 3⟩ ∧
    (executeW beBoom [nodeRetry2] initContext).state =
      WorkflowState.completed ∧
    (executeW beBoom [nodeRetry2] initContext).error_info = none := by
  refine ⟨by decide, by decide, by decide⟩

/-- Claim C7, counterexample: is_stuck is true although the latest
message is a user message, because the source never checks the role of
the latest message — refuting the claimed characterization, which makes
an assistant-role latest message necessary. -/
theorem c7_counterexample :
    is_stuck agentLastUser = true ∧
    (agentLastUser.memory.getLast?.map Message.role) = some "user" := by
  refine ⟨by decide, by decide⟩

/-- Claim C6: during the RUNNING phase, an uncaught fault forces the
agent state to ERROR (the except clause); on exit the finally clause
restores the pre-RUNNING state whenever the state at that point is not
FINISHED; and a FINISHED state reached by a normally returning body is
kept, never reverted. -/
theorem c6_state_context (previous : AgentState) (o : BodyOutcome) :
    (∀ s e, o = .fault s e → state_context_body_state o = .error) ∧
    (state_context_body_state o ≠ .finished →
      (state_context_exit previous o).1 = previous) ∧
    (o = .normal .finished → (state_context_exit previous o).1 = .finished) := by
  refine ⟨?_, ?_, ?_⟩
  · intro s e h
    subst h
    rfl
  · intro h
    simp [state_context_exit, state_context_restore, h]
  · intro h
    subst h
    rfl

/-- Witness for C6 at concrete inputs: a fault out of state RUNNING is
seen as ERROR by the finally clause and the exit state is the previous
IDLE; a body that ends FINISHED keeps FINISHED. -/
theorem c6_witness :
    state_context_body_state (BodyOutcome.fault .running "e") = .error ∧
    (state_context_exit .idle (BodyOutcome.fault .running "e")).1 = .idle ∧
    (state_context_exit .idle (BodyOutcome.normal .finished)).1 = .finished :=
  ⟨(c6_state_context .idle (.fault .running "e")).1 .running "e" rfl,
   (c6_state_context .idle (.fault .running "e")).2.1 (by decide),
   (c6_state_context .idle (.normal .finished)).2.2 rfl⟩

/-- Claim C9: when the condition of a node (a truthy, i.e. non-empty,
expression string — a falsy one counts as no condition) evaluates to
false — in particular when evaluating it raises, as a reference to a
not-yet-populated result does — _execute_single_node returns the
skipped marker at once: zero Execution Unit instances are constructed
and zero attempts are made, and only current_node is touched. -/
theorem c9_condition_skip (be : Backend) (ctx : ExecContext)
    (node : WorkflowNode) (c : String) (hc : node.condition = some c)
    (hcne : c ≠ "")
    (hev : be.evalCond c ctx.node_results ctx.global_data = .ok false ∨
           ∃ msg, be.evalCond c ctx.node_results ctx.global_data = .error msg) :
    execute_single_node be ctx node =
      (⟨Except.ok skippedResult, 0, 0⟩,
       { ctx with current_node := some node.id }) := by
  have hcond : check_condition be { ctx with current_node := some node.id } node
      = false := by
    unfold check_condition
    rw [hc]
    rcases hev with h | ⟨msg, h⟩ <;> simp [h, hcne]
  unfold execute_single_node
  simp [hcond]

/-- Witness for C9: a node whose condition reads a result that is not
populated yet is skipped without constructing its unit. -/
theorem c9_witness :
    execute_single_node beKeyErr initContext nodeCond =
      (⟨Except.ok skippedResult, 0, 0⟩,
       { initContext with current_node := some "S" }) :=
  c9_condition_skip beKeyErr initContext nodeCond
    "results[\x27A\x27][\x27x\x27] == 1" rfl (by decide)
    (Or.inr ⟨"KeyError", rfl⟩)

/-- Claim C7 (amended): the source never checks the role of the latest
message, so the unit is stuck exactly when the memory has at least two
messages, the latest message (whatever its role) has truthy content,
and at least duplicate_threshold earlier messages are assistant
messages with equal content.  With threshold 2, three identical
assistant messages are stuck at the third occurrence and not at the
second, and the stuck handler only prepends the fixed directive to the
next-step prompt, leaving state, step counter and memory untouched. -/
theorem c7_stuck_amended (a : AgentCore) (c : String) :
    (∀ last, a.memory.getLast? = some last →
      (is_stuck a = true ↔
        2 ≤ a.memory.length ∧ contentFalsy last.content = false ∧
        a.duplicate_threshold ≤
          (a.memory.dropLast.filter (fun m =>
            m.role = "assistant" && m.content = last.content)).length)) ∧
    (c ≠ "" →
      is_stuck { a with
        memory := [⟨"assistant", some c⟩, ⟨"assistant", some c⟩,
                   ⟨"assistant", some c⟩],
        duplicate_threshold := 2 } = true ∧
      is_stuck { a with
        memory := [⟨"assistant", some c⟩, ⟨"assistant", some c⟩],
        duplicate_threshold := 2 } = false) ∧
    ((handle_stuck_state a).next_step_prompt =
        some (stuck_prompt ++ "\n" ++ optStr a.next_step_prompt) ∧
      (handle_stuck_state a).state = a.state ∧
      (handle_stuck_state a).current_step = a.current_step ∧
      (handle_stuck_state a).memory = a.memory) := by
  refine ⟨?_, ?_, ?_⟩
  · intro last hlast
    unfold is_stuck
    rw [hlast]
    by_cases hlen : a.memory.length < 2
    · have h2 : ¬ 2 ≤ a.memory.length := by omega
      simp [hlen, h2]
    · have h2 : 2 ≤ a.memory.length := by omega
      by_cases hf : contentFalsy last.content
      · simp [hlen, hf]
      · simp [hlen, hf, h2]
  · intro hc
    have hfal : contentFalsy (some c) = false := by
      simp [contentFalsy, hc]
    constructor
    · simp [is_stuck, contentFalsy, hc]
    · simp [is_stuck, contentFalsy, hc]
  · exact ⟨rfl, rfl, rfl, rfl⟩

/-- Witness for C7 at concrete inputs: three identical assistant
messages with content "x" are stuck, two are not. -/
theorem c7_witness :
    is_stuck { agentLastUser with
      memory := [⟨"assistant", some "x"⟩, ⟨"assistant", some "x"⟩,
                 ⟨"assistant", some "x"⟩],
      duplicate_threshold := 2 } = true ∧
    is_stuck { agentLastUser with
      memory := [⟨"assistant", some "x"⟩, ⟨"assistant", some "x"⟩],
      duplicate_threshold := 2 } = false :=
  (c7_stuck_amended agentLastUser "x").2.1 (by decide)

/-- Claim C8: a tool call whose name is unregistered, or whose argument
payload does not parse as JSON, produces a textual error observation
("错误: ..."), leaves the agent state unchanged, and the act phase
completes normally, appending the observation to memory as a tool
message — no fault is raised. -/
theorem c8_tool_error_contained (env : ToolEnv) (special : List String)
    (st : ActState) (cmd : ToolCall)
    (hname : cmd.function.name ≠ "")
    (hbad : env.tool_names.contains cmd.function.name = false ∨
      env.parseJson (argsOrEmpty cmd.function.arguments) = none) :
    ∃ tail,
      execute_tool env special st.state cmd = ("错误: " ++ tail, st.state) ∧
      act env special none .auto st [cmd] =
        .ok (⟨st.state, st.memory ++ [⟨"tool", some ("错误: " ++ tail)⟩]⟩,
             "错误: " ++ tail) := by
  by_cases hc : env.tool_names.contains cmd.function.name = true
  · have hp : env.parseJson (argsOrEmpty cmd.function.arguments) = none := by
      rcases hbad with hb | hb
      · rw [hc] at hb
        exact absurd hb (by simp)
      · exact hb
    have hcm : cmd.function.name ∈ env.tool_names := by simpa using hc
    refine ⟨"解析" ++ cmd.function.name ++ "的参数时出错: 无效的JSON格式",
        ?_, ?_⟩ <;>
      simp [execute_tool, act, hname, hcm, hp, String.intercalate,
        String.intercalate.go, ← String.append_assoc]
  · have hcm : cmd.function.name ∉ env.tool_names := by simpa using hc
    refine ⟨"未知工具\x27" ++ cmd.function.name ++ "\x27", ?_, ?_⟩ <;>
      simp [execute_tool, act, hname, hcm, String.intercalate,
        String.intercalate.go, ← String.append_assoc]

/-- Witness for C8: invoking the unregistered tool name
"does_not_exist" yields a textual error observation and act completes
normally. -/
theorem c8_witness :
    ∃ tail,
      execute_tool envC8 ["terminate"] stC8.state cmdC8 =
        ("错误: " ++ tail, stC8.state) ∧
      act envC8 ["terminate"] none .auto stC8 [cmdC8] =
        .ok (⟨stC8.state,
              stC8.memory ++ [⟨"tool", some ("错误: " ++ tail)⟩]⟩,
             "错误: " ++ tail) :=
  c8_tool_error_contained envC8 ["terminate"] stC8 cmdC8 (by decide)
    (Or.inl (by decide))

/-- The stuck handler changes no field of the agent except the
next-step prompt. -/
theorem stuck_branch_fields (b : AgentCore) :
    (if is_stuck b then handle_stuck_state b else b).state = b.state ∧
    (if is_stuck b then handle_stuck_state b else b).current_step =
      b.current_step ∧
    (if is_stuck b then handle_stuck_state b else b).max_steps =
      b.max_steps := by
  by_cases h : is_stuck b <;> simp [h, handle_stuck_state]

/-- joinResults of a list ending in x ends in x. -/
theorem joinResults_ends (l : List String) (x : String) :
    ∃ t, joinResults (l ++ [x]) = t ++ x := by
  cases l with
  | nil => exact ⟨"", rfl⟩
  | cons r rs =>
    refine ⟨(rs.foldl (fun acc s => acc ++ "\n" ++ s) r) ++ "\n", ?_⟩
    simp [joinResults, List.foldl_append]

/-- Under a tame step function, the run loop with enough fuel executes
exactly the remaining number of steps, ends with no fault and with the
step counter at max_steps. -/
theorem runLoop_exhausts (stepFn : AgentCore → StepOutcome)
    (htame : TameStep stepFn) :
    ∀ (r fuel : Nat) (a : AgentCore) (res : List String) (cnt : Nat),
    a.state ≠ .finished → a.current_step + r = a.max_steps → r < fuel →
    ∃ aF resApp, runLoop stepFn fuel a res cnt =
        ⟨aF, res ++ resApp, cnt + r, none⟩ ∧
      aF.current_step = aF.max_steps ∧ aF.max_steps = a.max_steps ∧
      aF.state ≠ .finished := by
  intro r
  induction r with
  | zero =>
    intro fuel a res cnt hfin hcnt hfuel
    obtain ⟨fuel1, rfl⟩ : ∃ f1, fuel = f1 + 1 := by
      cases fuel with
      | zero => omega
      | succ f => exact ⟨f, rfl⟩
    have hlt : ¬ (a.current_step < a.max_steps) := by omega
    refine ⟨a, [], ?_, by omega, rfl, hfin⟩
    simp [runLoop, hlt]
  | succ r ih =>
    intro fuel a res cnt hfin hcnt hfuel
    obtain ⟨fuel1, rfl⟩ : ∃ f1, fuel = f1 + 1 := by
      cases fuel with
      | zero => omega
      | succ f => exact ⟨f, rfl⟩
    have hlt : a.current_step < a.max_steps := by omega
    obtain ⟨b2, m, hstep, hb2fin, hb2cs, hb2max⟩ :=
      htame { a with current_step := a.current_step + 1 }
    have hfields := stuck_branch_fields b2
    obtain ⟨aF, resApp, hrec, hF1, hF2, hF3⟩ :=
      ih fuel1 (if is_stuck b2 then handle_stuck_state b2 else b2)
        (res ++ ["Step " ++
          toString (if is_stuck b2 then handle_stuck_state b2 else b2).current_step
          ++ ": " ++ m])
        (cnt + 1)
        (by rw [hfields.1]; exact hb2fin)
        (by
          rw [hfields.2.1, hb2cs, hfields.2.2, hb2max]
          show a.current_step + 1 + r = a.max_steps
          omega)
        (by omega)
    refine ⟨aF,
      ["Step " ++
        toString (if is_stuck b2 then handle_stuck_state b2 else b2).current_step
        ++ ": " ++ m] ++ resApp, ?_, hF1, ?_, hF3⟩
    · rw [runLoop, if_pos ⟨hlt, hfin⟩]
      simp only [hstep]
      rw [hrec]
      congr 1
      · simp
      · omega
    · rw [hF2, hfields.2.2, hb2max]

/-- Claim C5: an Execution Unit started from IDLE with maxSteps = 3
whose step never reaches FINISHED and never faults runs exactly 3
steps, then returns normally with state IDLE, step counter 0, and a
summary ending in the max-steps notice. -/
theorem c5_max_steps (stepFn : AgentCore → StepOutcome) (a : AgentCore)
    (htame : TameStep stepFn) (hidle : a.state = .idle)
    (hmax : a.max_steps = 3) (hstep0 : a.current_step = 0) :
    ∃ a4 s, run stepFn a none = (.ok (a4, s), 3) ∧
      a4.state = .idle ∧ a4.current_step = 0 ∧
      ∃ t, s = t ++ "Terminated: Reached max steps (3)" := by
  obtain ⟨aF, resApp, hrec, hF1, hF2, hF3⟩ :=
    runLoop_exhausts stepFn htame 3 (a.max_steps + 1)
      { a with state := .running } [] 0
      (by simp)
      (by show a.current_step + 3 = a.max_steps; omega)
      (by omega)
  have hmaxF : aF.max_steps = 3 := by rw [hF2]; exact hmax
  have hnot : ¬ (a.state ≠ AgentState.idle) := by simp [hidle]
  have hle : aF.max_steps ≤ aF.current_step := le_of_eq hF1.symm
  refine ⟨{ aF with current_step := 0, state := .idle },
    joinResults (([] ++ resApp) ++
      ["Terminated: Reached max steps (" ++ toString aF.max_steps ++ ")"]),
    ?_, rfl, rfl, ?_⟩
  · rw [run, if_neg hnot]
    simp only [hrec, if_pos hle, state_context_restore, hidle]
    simp
  · obtain ⟨t, ht⟩ := joinResults_ends ([] ++ resApp)
      ("Terminated: Reached max steps (" ++ toString aF.max_steps ++ ")")
    refine ⟨t, ?_⟩
    rw [ht, hmaxF]
    rfl

/-- Witness for C5: the concrete tame step function on the concrete
idle agent with maxSteps = 3. -/
theorem c5_witness :
    ∃ a4 s, run stepC5 agentC5 none = (.ok (a4, s), 3) ∧
      a4.state = .idle ∧ a4.current_step = 0 ∧
      ∃ t, s = t ++ "Terminated: Reached max steps (3)" :=
  c5_max_steps stepC5 agentC5
    (fun b => ⟨{ b with state := .running }, "w", rfl, by simp, rfl, rfl⟩)
    rfl rfl rfl

/-! ## Kahn development: list-counting helpers -/

theorem filter_length_split {α : Type} (l : List α) (p q : α → Bool) :
    (l.filter p).length =
      (l.filter (fun a => p a && q a)).length +
      (l.filter (fun a => p a && !q a)).length := by
  induction l with
  | nil => rfl
  | cons a rest ih =>
    cases hp : p a <;> cases hq : q a <;>
      simp [List.filter_cons, hp, hq, ih] <;> omega

theorem filter_cons_len {α : Type} (p : α → Bool) (a : α) (l : List α) :
    (List.filter p (a :: l)).length =
      (if p a then 1 else 0) + (List.filter p l).length := by
  by_cases h : p a <;> simp [List.filter_cons, h] <;> omega

theorem targetsOf_cons (e : String × String) (rest : List (String × String))
    (c : String) :
    targetsOf (e :: rest) c =
      if e.1 = c then e.2 :: targetsOf rest c else targetsOf rest c := by
  by_cases h : e.1 = c <;> simp [targetsOf, List.filter_cons, h]

theorem count_targetsOf (edges : List (String × String)) (c x : String) :
    (targetsOf edges c).count x =
      (edges.filter (fun e => decide (e.1 = c) && decide (e.2 = x))).length := by
  induction edges with
  | nil => rfl
  | cons e rest ih =>
    rw [targetsOf_cons, filter_cons_len]
    by_cases h1 : e.1 = c <;> by_cases h2 : e.2 = x <;>
      simp [h1, h2, List.count_cons, ih] <;> omega

theorem length_filter_memcons (es : List (String × String)) (c : String)
    (rest : List String) (x : String) (hc : c ∉ rest) :
    (es.filter (fun e => decide (e.1 ∈ c :: rest) && decide (e.2 = x))).length =
    (es.filter (fun e => decide (e.1 = c) && decide (e.2 = x))).length +
    (es.filter (fun e => decide (e.1 ∈ rest) && decide (e.2 = x))).length := by
  induction es with
  | nil => rfl
  | cons e es ih =>
    rw [filter_cons_len, filter_cons_len, filter_cons_len, ih]
    by_cases h1 : e.1 = c
    · by_cases h2 : e.2 = x <;> simp [h1, hc, h2] <;> omega
    · by_cases hr : e.1 ∈ rest <;> by_cases h2 : e.2 = x <;>
        simp [h1, hr, h2, List.mem_cons] <;> omega

theorem count_flatMap_targets (edges : List (String × String)) :
    ∀ (cur : List String) (x : String), cur.Nodup →
    ((cur.flatMap (targetsOf edges)).count x) =
      (edges.filter (fun e => decide (e.1 ∈ cur) && decide (e.2 = x))).length := by
  intro cur
  induction cur with
  | nil =>
    intro x _
    simp [List.flatMap]
  | cons c rest ih =>
    intro x hnd
    rw [List.flatMap_cons, List.count_append, count_targetsOf,
      ih x hnd.of_cons,
      length_filter_memcons edges c rest x (List.nodup_cons.1 hnd).1]

theorem pending_step (edges : List (String × String))
    (emitted cur : List String) (hnd : (emitted ++ cur).Nodup) (x : String) :
    pendingInDegree edges emitted x =
      (edges.filter (fun e => decide (e.1 ∈ cur) && decide (e.2 = x))).length +
      pendingInDegree edges (emitted ++ cur) x := by
  have hdisj : ∀ a, a ∈ emitted → a ∉ cur :=
    fun a ha hb => (List.nodup_append.1 hnd).2.2 ha hb
  unfold pendingInDegree
  induction edges with
  | nil => rfl
  | cons e es ihe =>
    rw [filter_cons_len, filter_cons_len, filter_cons_len, ihe]
    by_cases h2 : e.2 = x
    · by_cases hcc : e.1 ∈ cur
      · have hem : e.1 ∉ emitted := fun hm => hdisj e.1 hm hcc
        simp [h2, hcc, hem, List.mem_append]
        omega
      · by_cases hem : e.1 ∈ emitted <;>
          simp [h2, hcc, hem, List.mem_append] <;> omega
    · simp [h2]

/-! ## Kahn development: fold characterizations -/

theorem foldl_flatMap {α β σ : Type} (f : σ → β → σ) (g : α → List β) :
    ∀ (l : List α) (s : σ),
    (l.flatMap g).foldl f s = l.foldl (fun s a => (g a).foldl f s) s := by
  intro l
  induction l with
  | nil => intro s; rfl
  | cons a rest ih =>
    intro s
    rw [List.flatMap_cons, List.foldl_append, List.foldl_cons, ih]

theorem flatMap_congr_mem {α β : Type} (l : List α) (f g : α → List β)
    (h : ∀ a ∈ l, f a = g a) : l.flatMap f = l.flatMap g := by
  induction l with
  | nil => rfl
  | cons a rest ih =>
    rw [List.flatMap_cons, List.flatMap_cons, h a (by simp),
      ih (fun a ha => h a (by simp [ha]))]

/-- The in-degree map after the decrement fold: every key drops by the
number of occurrences among the processed neighbors. -/
theorem decrFold_deg :
    ∀ (E : List String) (st : List (String × Int) × List String)
      (x : String) (v : Int), dlookup st.1 x = some v →
    dlookup (E.foldl decrNeighbor st).1 x = some (v - (E.count x : Int)) := by
  intro E
  induction E with
  | nil =>
    intro st x v hv
    simpa using hv
  | cons e E1 ih =>
    intro st x v hv
    rw [List.foldl_cons]
    by_cases hex : e = x
    · subst hex
      have hlook : dlookup (decrNeighbor st e).1 e = some (v - 1) := by
        simp [decrNeighbor, hv, dlookup_dset]
      rw [ih _ e (v - 1) hlook]
      congr 1
      rw [List.count_cons]
      push_cast
      simp
      omega
    · have hlook : dlookup (decrNeighbor st e).1 x = dlookup st.1 x := by
        simp [decrNeighbor, dlookup_dset, hex]
      rw [ih _ x v (hlook.trans hv)]
      have hne : (e == x) = false := beq_eq_false_iff_ne.2 hex
      rw [List.count_cons, hne]
      simp

/-- How many times x enters next_level during the decrement fold: once
if its current value lies between 1 and its number of occurrences
(i.e. it reaches exactly zero during the fold), never otherwise. -/
theorem decrFold_next :
    ∀ (E : List String) (st : List (String × Int) × List String)
      (x : String),
    (E.foldl decrNeighbor st).2.count x = st.2.count x +
      (if 1 ≤ (dlookup st.1 x).getD 0 ∧
          (dlookup st.1 x).getD 0 ≤ (E.count x : Int) then 1 else 0) := by
  intro E
  induction E with
  | nil =>
    intro st x
    simp only [List.foldl_nil, List.count_nil]
    push_cast
    split_ifs with h
    · omega
    · omega
  | cons e E1 ih =>
    intro st x
    rw [List.foldl_cons, ih]
    by_cases hex : e = x
    · subst hex
      have hw : (dlookup (decrNeighbor st e).1 e).getD 0 =
          (dlookup st.1 e).getD 0 - 1 := by
        simp [decrNeighbor, dlookup_dset]
      have hcnt : ((e :: E1).count e : Int) = (E1.count e : Int) + 1 := by
        rw [List.count_cons]
        push_cast
        simp
      have hnext : (decrNeighbor st e).2.count e = st.2.count e +
          (if (dlookup st.1 e).getD 0 - 1 = 0 then 1 else 0) := by
        by_cases hz : (dlookup st.1 e).getD 0 - 1 = 0 <;>
          simp [decrNeighbor, hz, List.count_append]
      rw [hw, hnext, hcnt]
      split_ifs <;> omega
    · have hw : (dlookup (decrNeighbor st e).1 x).getD 0 =
          (dlookup st.1 x).getD 0 := by
        simp [decrNeighbor, dlookup_dset, hex]
      have hne : (e == x) = false := beq_eq_false_iff_ne.2 hex
      have hcnt : ((e :: E1).count x : Int) = (E1.count x : Int) := by
        rw [List.count_cons, hne]
        simp
      have hsnd : (decrNeighbor st e).2 =
          if ((dlookup st.1 e).getD 0 - 1) = 0 then st.2 ++ [e]
          else st.2 := rfl
      have hnext : (decrNeighbor st e).2.count x = st.2.count x := by
        rw [hsnd]
        by_cases hz : ((dlookup st.1 e).getD 0 - 1) = 0
        · rw [if_pos hz, List.count_append, List.count_cons, hne]
          simp
        · rw [if_neg hz]
      rw [hw, hnext, hcnt]

theorem mem_targetsOf {edges : List (String × String)} {c y : String}
    (h : y ∈ targetsOf edges c) : ∃ e ∈ edges, e.1 = c ∧ e.2 = y := by
  unfold targetsOf at h
  obtain ⟨e, he, hey⟩ := List.mem_map.1 h
  have := List.mem_filter.1 he
  exact ⟨e, this.1, by simpa using this.2, hey⟩

theorem decrFold_deg_none :
    ∀ (E : List String) (st : List (String × Int) × List String)
      (x : String), x ∉ E →
    dlookup (E.foldl decrNeighbor st).1 x = dlookup st.1 x := by
  intro E
  induction E with
  | nil => intro st x _; rfl
  | cons e E1 ih =>
    intro st x hx
    have hex : ¬ e = x := fun h => hx (by simp [h])
    rw [List.foldl_cons, ih _ x (fun h => hx (by simp [h]))]
    simp [decrNeighbor, dlookup_dset, hex]

theorem pend_zero_sources {edges : List (String × String)}
    {emitted : List String} {x : String}
    (h : pendingInDegree edges emitted x = 0) :
    ∀ e ∈ edges, e.2 = x → e.1 ∈ emitted := by
  intro e he h2
  by_contra hne
  have hmem : e ∈ edges.filter (fun e => e.2 = x && decide (e.1 ∉ emitted)) :=
    List.mem_filter.2 ⟨he, by simp [h2, hne]⟩
  unfold pendingInDegree at h
  rw [List.length_eq_zero] at h
  rw [h] at hmem
  simp at hmem

/-- One iteration of the while loop preserves the invariant, the level
just emitted has all its edge sources already emitted, and the next
level is exactly the set of nodes whose pending in-degree dropped to
zero. -/
theorem kahn_step (edges : List (String × String)) (ids : List String)
    (graph : List (String × List String)) (inDeg : List (String × Int))
    (current emitted : List String)
    (hedges : ∀ e ∈ edges, e.1 ∈ ids ∧ e.2 ∈ ids)
    (hgraph : ∀ x ∈ ids, dlookup graph x = some (targetsOf edges x))
    (inv : KahnInv edges ids inDeg current emitted) :
    KahnInv edges ids (processLevel graph inDeg current).1
      (processLevel graph inDeg current).2 (emitted ++ current) ∧
    (∀ x ∈ current, ∀ e ∈ edges, e.2 = x → e.1 ∈ emitted) := by
  have hcurnd : current.Nodup := (List.nodup_append.1 inv.nd).2.1
  have hcursub : ∀ c ∈ current, c ∈ ids :=
    fun c hc => inv.sub c (List.mem_append.2 (Or.inr hc))
  -- the processed neighbor sequence
  have hflat : current.flatMap (fun c => (dlookup graph c).getD []) =
      current.flatMap (targetsOf edges) := by
    apply flatMap_congr_mem
    intro c hc
    rw [hgraph c (hcursub c hc)]
    rfl
  have hpe : processLevel graph inDeg current =
      (current.flatMap (targetsOf edges)).foldl decrNeighbor (inDeg, []) := by
    unfold processLevel
    rw [← foldl_flatMap, hflat]
  set Ecur := current.flatMap (targetsOf edges) with hEcur
  have hEsub : ∀ y ∈ Ecur, y ∈ ids := by
    intro y hy
    obtain ⟨c, _, hyt⟩ := List.mem_flatMap.1 hy
    obtain ⟨e, he, _, hey⟩ := mem_targetsOf hyt
    exact hey ▸ (hedges e he).2
  have hEcnt : ∀ x, Ecur.count x =
      (edges.filter (fun e => decide (e.1 ∈ current) && decide (e.2 = x))).length :=
    fun x => count_flatMap_targets edges current x hcurnd
  -- value of the new in-degree map on ids
  have hndE : (emitted ++ current).Nodup := inv.nd
  have hcount1 : ∀ x ∈ ids,
      dlookup (processLevel graph inDeg current).1 x =
        some ((pendingInDegree edges (emitted ++ current) x : Int)) := by
    intro x hx
    rw [hpe, decrFold_deg Ecur (inDeg, []) x _ (inv.count x hx), hEcnt x]
    congr 1
    have hps := pending_step edges emitted current hndE x
    push_cast [hps]
    omega
  -- membership in next_level
  have hnext_cnt : ∀ x, (processLevel graph inDeg current).2.count x =
      (if 1 ≤ ((dlookup inDeg x).getD 0) ∧
          ((dlookup inDeg x).getD 0) ≤ (Ecur.count x : Int)
       then 1 else 0) := by
    intro x
    rw [hpe, decrFold_next Ecur (inDeg, []) x]
    simp
  have hnext_nd : (processLevel graph inDeg current).2.Nodup := by
    rw [List.nodup_iff_count_le_one]
    intro x
    rw [hnext_cnt x]
    split_ifs <;> omega
  have hnext_mem : ∀ x, x ∈ (processLevel graph inDeg current).2 ↔
      (1 ≤ ((dlookup inDeg x).getD 0) ∧
        ((dlookup inDeg x).getD 0) ≤ (Ecur.count x : Int)) := by
    intro x
    rw [← List.count_pos_iff, hnext_cnt x]
    split_ifs with h <;> simp [h]
  have hnext_ids : ∀ x ∈ (processLevel graph inDeg current).2, x ∈ ids := by
    intro x hx
    obtain ⟨h1, _⟩ := (hnext_mem x).1 hx
    by_contra hxids
    rw [inv.keysSub x hxids] at h1
    simp at h1
  -- pending value of members of next is the full current-source count
  have hnext_pend : ∀ x ∈ (processLevel graph inDeg current).2,
      pendingInDegree edges (emitted ++ current) x = 0 := by
    intro x hx
    obtain ⟨h1, h2⟩ := (hnext_mem x).1 hx
    have hxids := hnext_ids x hx
    rw [inv.count x hxids] at h1 h2
    have hps := pending_step edges emitted current hndE x
    rw [hEcnt x] at h2
    simp at h1 h2
    omega
  -- members of next were pending before
  have hnext_notold : ∀ x ∈ (processLevel graph inDeg current).2,
      x ∉ emitted ++ current := by
    intro x hx hold
    obtain ⟨h1, _⟩ := (hnext_mem x).1 hx
    have hxids := hnext_ids x hx
    rw [inv.count x hxids] at h1
    have := inv.zero x hold
    simp [this] at h1
  refine ⟨⟨?_, ?_, ?_, hcount1, ?_, ?_⟩, ?_⟩
  · -- keysSub
    intro x hxids
    rw [hpe, decrFold_deg_none Ecur (inDeg, []) x
      (fun hmem => hxids (hEsub x hmem))]
    exact inv.keysSub x hxids
  · -- Nodup of emitted' ++ next
    rw [List.nodup_append]
    exact ⟨inv.nd, hnext_nd, fun a ha hb => hnext_notold a hb ha⟩
  · -- subset of ids
    intro x hx
    rcases List.mem_append.1 hx with h | h
    · exact inv.sub x h
    · exact hnext_ids x h
  · -- zero for emitted' ++ next
    intro x hx
    rcases List.mem_append.1 hx with h | h
    · have h0 := inv.zero x h
      have hps := pending_step edges emitted current hndE x
      omega
    · exact hnext_pend x h
  · -- positivity for still-pending nodes
    intro x hxids hxe hxn
    have hxold : x ∉ emitted ++ current → 1 ≤ pendingInDegree edges emitted x :=
      fun h => inv.pos x hxids (fun hh => h (List.mem_append.2 (Or.inl hh)))
        (fun hh => h (List.mem_append.2 (Or.inr hh)))
    by_cases hold : x ∈ emitted ++ current
    · exact absurd hold hxe
    · have hp1 := hxold hold
      by_contra hzero
      have hz : pendingInDegree edges (emitted ++ current) x = 0 := by omega
      have hps := pending_step edges emitted current hndE x
      have hw : dlookup inDeg x = some ((pendingInDegree edges emitted x : Int)) :=
        inv.count x hxids
      have : x ∈ (processLevel graph inDeg current).2 := by
        rw [hnext_mem x, hw, hEcnt x]
        simp
        omega
      exact hxn this
  · -- sources of the emitted level
    intro x hx e he h2
    exact pend_zero_sources (inv.zero x (List.mem_append.2 (Or.inr hx))) e he h2

/-- Soundness of the while loop: starting from an invariant state, the
produced levels contain only ids, never repeat a node (also not one
already emitted), and every edge into a node of level i comes from an
already-emitted node or from a strictly earlier level. -/
theorem kahnLoop_sound (edges : List (String × String)) (ids : List String)
    (graph : List (String × List String))
    (hedges : ∀ e ∈ edges, e.1 ∈ ids ∧ e.2 ∈ ids)
    (hgraph : ∀ x ∈ ids, dlookup graph x = some (targetsOf edges x)) :
    ∀ (fuel : Nat) (inDeg : List (String × Int))
      (current emitted : List String),
    KahnInv edges ids inDeg current emitted →
    (emitted ++ (kahnLoop graph fuel inDeg current).flatten).Nodup ∧
    (∀ x ∈ (kahnLoop graph fuel inDeg current).flatten, x ∈ ids) ∧
    (∀ i (hi : i < (kahnLoop graph fuel inDeg current).length),
      ∀ x ∈ (kahnLoop graph fuel inDeg current).get ⟨i, hi⟩,
      ∀ e ∈ edges, e.2 = x →
        e.1 ∈ emitted ∨
        ∃ j, ∃ (hj : j < (kahnLoop graph fuel inDeg current).length),
          j < i ∧ e.1 ∈ (kahnLoop graph fuel inDeg current).get ⟨j, hj⟩) := by
  intro fuel
  induction fuel with
  | zero =>
    intro inDeg current emitted inv
    refine ⟨?_, by simp [kahnLoop], by simp [kahnLoop]⟩
    simpa [kahnLoop] using (List.nodup_append.1 inv.nd).1
  | succ fuel ih =>
    intro inDeg current emitted inv
    by_cases hemp : current.isEmpty
    · refine ⟨?_, by simp [kahnLoop, hemp], by simp [kahnLoop, hemp]⟩
      simpa [kahnLoop, hemp] using (List.nodup_append.1 inv.nd).1
    · obtain ⟨inv1, hsrc⟩ := kahn_step edges ids graph inDeg current emitted
        hedges hgraph inv
      obtain ⟨ihnd, ihsub, ihord⟩ :=
        ih (processLevel graph inDeg current).1
          (processLevel graph inDeg current).2 (emitted ++ current) inv1
      have hunf : kahnLoop graph (fuel + 1) inDeg current =
          current :: kahnLoop graph fuel (processLevel graph inDeg current).1
            (processLevel graph inDeg current).2 := by
        rw [kahnLoop, if_neg (by simpa using hemp)]
      rw [hunf]
      refine ⟨?_, ?_, ?_⟩
      · rw [List.flatten_cons, ← List.append_assoc]
        exact ihnd
      · intro x hx
        rw [List.flatten_cons] at hx
        rcases List.mem_append.1 hx with h | h
        · exact inv.sub x (List.mem_append.2 (Or.inr h))
        · exact ihsub x h
      · intro i hi x hx e he h2
        cases i with
        | zero =>
          exact Or.inl (hsrc x hx e he h2)
        | succ k =>
          have hk : k < (kahnLoop graph fuel
              (processLevel graph inDeg current).1
              (processLevel graph inDeg current).2).length := by
            simpa using Nat.lt_of_succ_lt_succ hi
          have hxk : x ∈ (kahnLoop graph fuel
              (processLevel graph inDeg current).1
              (processLevel graph inDeg current).2).get ⟨k, hk⟩ := hx
          rcases ihord k hk x hxk e he h2 with hsrc2 | ⟨j, hj, hji, hjm⟩
          · rcases List.mem_append.1 hsrc2 with h | h
            · exact Or.inl h
            · exact Or.inr ⟨0, by simp, Nat.succ_pos k, h⟩
          · exact Or.inr ⟨j + 1, by simpa using Nat.succ_lt_succ hj,
              Nat.succ_lt_succ hji, hjm⟩

theorem exists_pending_source {edges : List (String × String)}
    {emitted : List String} {y : String}
    (h : 1 ≤ pendingInDegree edges emitted y) :
    ∃ e ∈ edges, e.2 = y ∧ e.1 ∉ emitted := by
  unfold pendingInDegree at h
  have hne : edges.filter (fun e => e.2 = y && decide (e.1 ∉ emitted)) ≠ [] := by
    intro hcontra
    rw [hcontra] at h
    simp at h
  obtain ⟨e, he⟩ := List.exists_mem_of_ne_nil _ hne
  have hmem := List.mem_filter.1 he
  have hpred := hmem.2
  simp only [Bool.and_eq_true, decide_eq_true_eq] at hpred
  exact ⟨e, hmem.1, hpred.1, hpred.2⟩

/-- Completeness of the while loop under acyclicity: with enough fuel
every id ends up emitted or in some produced level. -/
theorem kahnLoop_complete (edges : List (String × String))
    (ids : List String) (graph : List (String × List String))
    (hedges : ∀ e ∈ edges, e.1 ∈ ids ∧ e.2 ∈ ids)
    (hgraph : ∀ x ∈ ids, dlookup graph x = some (targetsOf edges x))
    (rank : String → Nat) (hrank : ∀ e ∈ edges, rank e.1 < rank e.2) :
    ∀ (fuel : Nat) (inDeg : List (String × Int))
      (current emitted : List String),
    KahnInv edges ids inDeg current emitted →
    ids.length < fuel + emitted.length →
    ∀ x ∈ ids, x ∈ emitted ++ (kahnLoop graph fuel inDeg current).flatten := by
  intro fuel
  induction fuel with
  | zero =>
    intro inDeg current emitted inv hfuel x hx
    have hsp : emitted.Subperm ids :=
      List.subperm_of_subset (List.nodup_append.1 inv.nd).1
        (fun a ha => inv.sub a (List.mem_append.2 (Or.inl ha)))
    have := hsp.length_le
    omega
  | succ fuel ih =>
    intro inDeg current emitted inv hfuel x hx
    by_cases hemp : current.isEmpty
    · have hcur : current = [] := List.isEmpty_iff.1 hemp
      have hall : ∀ k, ∀ y, rank y < k → y ∈ ids → y ∈ emitted := by
        intro k
        induction k with
        | zero => intro y hy; omega
        | succ k ihk =>
          intro y hk hy
          by_contra hye
          have hp := inv.pos y hy hye (by simp [hcur])
          obtain ⟨e, he, h2, hnm⟩ := exists_pending_source hp
          have hrk := hrank e he
          rw [h2] at hrk
          exact hnm (ihk e.1 (by omega) (hedges e he).1)
      exact List.mem_append.2 (Or.inl (hall (rank x + 1) x (by omega) hx))
    · obtain ⟨inv1, _⟩ := kahn_step edges ids graph inDeg current emitted
        hedges hgraph inv
      have hlen : 1 ≤ current.length := by
        cases current with
        | nil => simp at hemp
        | cons a l => simp
      have hfuel1 : ids.length < fuel + (emitted ++ current).length := by
        rw [List.length_append]
        omega
      have hmem := ih (processLevel graph inDeg current).1
        (processLevel graph inDeg current).2 (emitted ++ current) inv1
        hfuel1 x hx
      have hunf : kahnLoop graph (fuel + 1) inDeg current =
          current :: kahnLoop graph fuel (processLevel graph inDeg current).1
            (processLevel graph inDeg current).2 := by
        rw [kahnLoop, if_neg (by simpa using hemp)]
      rw [hunf, List.flatten_cons]
      rcases List.mem_append.1 hmem with h | h
      · rcases List.mem_append.1 h with h1 | h1
        · exact List.mem_append.2 (Or.inl h1)
        · exact List.mem_append.2 (Or.inr (List.mem_append.2 (Or.inl h1)))
      · exact List.mem_append.2 (Or.inr (List.mem_append.2 (Or.inr h)))

/-! ## Kahn development: characterizing the built maps -/

theorem dset_append_fresh {α : Type} :
    ∀ (m : List (String × α)) (k : String) (v : α), k ∉ dkeys m →
    dset m k v = m ++ [(k, v)] := by
  intro m
  induction m with
  | nil => intro k v _; rfl
  | cons p rest ih =>
    intro k v hk
    obtain ⟨k0, v0⟩ := p
    rw [dkeys_cons] at hk
    have h0 : ¬ k0 = k := fun h => hk (by simp [h])
    simp [dset, h0, ih k v (fun h => hk (by simp [h]))]

theorem foldl_dset_fresh {α : Type} (c : α) :
    ∀ (nodes : List WorkflowNode) (m : List (String × α)),
    (∀ n ∈ nodes, n.id ∉ dkeys m) → (nodeIds nodes).Nodup →
    nodes.foldl (fun m n => dset m n.id c) m =
      m ++ nodes.map (fun n => (n.id, c)) := by
  intro nodes
  induction nodes with
  | nil => intro m _ _; simp
  | cons n rest ih =>
    intro m hfresh hnd
    rw [List.foldl_cons,
      dset_append_fresh m n.id c (hfresh n (by simp)),
      ih (m ++ [(n.id, c)]) ?_ ?_]
    · simp
    · intro n1 hn1
      have h1 : n1.id ∉ dkeys m := hfresh n1 (by simp [hn1])
      have h2 : ¬ n1.id = n.id := by
        intro h
        have : n.id ∈ nodeIds rest := by
          rw [← h]
          exact List.mem_map.2 ⟨n1, hn1, rfl⟩
        exact (List.nodup_cons.1 (by simpa [nodeIds] using hnd)).1 this
      intro hmem
      have hmem2 : n1.id ∈ dkeys m ++ [n.id] := by
        simpa [dkeys, List.map_append] using hmem
      rcases List.mem_append.1 hmem2 with h | h
      · exact h1 h
      · simp at h
        exact h2 h
    · exact (List.nodup_cons.1 (by simpa [nodeIds] using hnd)).2

theorem lookup_map_const {α : Type} (c : α) :
    ∀ (nodes : List WorkflowNode) (x : String),
    dlookup (nodes.map (fun n => (n.id, c))) x =
      if x ∈ nodeIds nodes then some c else none := by
  intro nodes
  induction nodes with
  | nil => intro x; simp [dlookup, nodeIds]
  | cons n rest ih =>
    intro x
    by_cases h : n.id = x
    · simp [dlookup, h, nodeIds]
    · have hx : ¬ x = n.id := fun hh => h hh.symm
      simp only [List.map_cons, dlookup, h, if_false, ih x]
      by_cases hm : x ∈ nodeIds rest <;> simp [nodeIds, hm, hx]

theorem edgeFold_keys :
    ∀ (edges : List (String × String))
      (gd : List (String × List String) × List (String × Int)),
    dkeys (edgeFold edges gd).1 = dkeys gd.1 ∧
    dkeys (edgeFold edges gd).2 = dkeys gd.2 := by
  intro edges
  induction edges with
  | nil => intro gd; exact ⟨rfl, rfl⟩
  | cons e rest ih =>
    intro gd
    have hstep : edgeFold (e :: rest) gd =
        edgeFold rest (dmodify gd.1 e.1 (fun l => l ++ [e.2]),
          dmodify gd.2 e.2 (fun d => d + 1)) := rfl
    rw [hstep]
    obtain ⟨h1, h2⟩ := ih (dmodify gd.1 e.1 (fun l => l ++ [e.2]),
      dmodify gd.2 e.2 (fun d => d + 1))
    exact ⟨by rw [h1]; exact dkeys_dmodify _ _ _,
      by rw [h2]; exact dkeys_dmodify _ _ _⟩

theorem edgeFold_graph :
    ∀ (edges : List (String × String))
      (gd : List (String × List String) × List (String × Int)) (x : String),
    dlookup (edgeFold edges gd).1 x =
      (dlookup gd.1 x).map (fun l => l ++ targetsOf edges x) := by
  intro edges
  induction edges with
  | nil =>
    intro gd x
    cases h : dlookup gd.1 x <;> simp [edgeFold, targetsOf, h]
  | cons e rest ih =>
    intro gd x
    have hstep : edgeFold (e :: rest) gd =
        edgeFold rest (dmodify gd.1 e.1 (fun l => l ++ [e.2]),
          dmodify gd.2 e.2 (fun d => d + 1)) := rfl
    rw [hstep, ih, targetsOf_cons]
    by_cases h1 : e.1 = x
    · subst h1
      rw [if_pos rfl, dlookup_dmodify, if_pos rfl]
      cases h : dlookup gd.1 e.1 <;> simp [h]
    · rw [if_neg h1, dlookup_dmodify, if_neg h1]

theorem edgeFold_deg :
    ∀ (edges : List (String × String))
      (gd : List (String × List String) × List (String × Int)) (x : String),
    dlookup (edgeFold edges gd).2 x =
      (dlookup gd.2 x).map (fun v =>
        v + ((edges.filter (fun e => decide (e.2 = x))).length : Int)) := by
  intro edges
  induction edges with
  | nil =>
    intro gd x
    cases h : dlookup gd.2 x <;> simp [edgeFold, h]
  | cons e rest ih =>
    intro gd x
    have hstep : edgeFold (e :: rest) gd =
        edgeFold rest (dmodify gd.1 e.1 (fun l => l ++ [e.2]),
          dmodify gd.2 e.2 (fun d => d + 1)) := rfl
    rw [hstep, ih, filter_cons_len, dlookup_dmodify]
    by_cases h2 : e.2 = x
    · rw [if_pos h2]
      cases h : dlookup gd.2 x <;> simp [h2, h]
      omega
    · rw [if_neg h2]
      cases h : dlookup gd.2 x <;> simp [h2, h]

theorem buildMaps_eq_edgeFold (nodes : List WorkflowNode) :
    buildMaps nodes = edgeFold (edgeList nodes)
      (initGraph nodes, initInDegree nodes) := by
  unfold buildMaps edgeList edgeFold
  rw [foldl_flatMap]
  congr 1
  funext gd n
  rw [List.foldl_map]

theorem pend_nil (edges : List (String × String)) (x : String) :
    pendingInDegree edges [] x =
      (edges.filter (fun e => decide (e.2 = x))).length := by
  unfold pendingInDegree
  induction edges with
  | nil => rfl
  | cons e rest ih =>
    rw [filter_cons_len, filter_cons_len, ih]
    by_cases h2 : e.2 = x <;> simp [h2]

theorem mem_edgeList {nodes : List WorkflowNode} {e : String × String} :
    e ∈ edgeList nodes ↔
      ∃ n ∈ nodes, e.1 ∈ n.dependencies ∧ e.2 = n.id := by
  unfold edgeList
  rw [List.mem_flatMap]
  constructor
  · rintro ⟨n, hn, hmem⟩
    obtain ⟨d, hd, hde⟩ := List.mem_map.1 hmem
    refine ⟨n, hn, ?_, ?_⟩ <;> rw [← hde] <;> simpa using hd
  · rintro ⟨n, hn, h1, h2⟩
    exact ⟨n, hn, List.mem_map.2 ⟨e.1, h1, by rw [← h2]⟩⟩

theorem mem_filter_map_fst {α : Type} (p : α → Bool) :
    ∀ (m : List (String × α)), (dkeys m).Nodup → ∀ (x : String),
    (x ∈ (m.filter (fun q => p q.2)).map Prod.fst ↔
      ∃ v, dlookup m x = some v ∧ p v) := by
  intro m
  induction m with
  | nil => intro _ x; simp [dlookup]
  | cons q rest ih =>
    intro hnd x
    obtain ⟨k0, v0⟩ := q
    rw [dkeys_cons, List.nodup_cons] at hnd
    by_cases h0 : k0 = x
    · subst h0
      have hrest : dlookup rest k0 = none :=
        dlookup_eq_none_of_not_mem hnd.1
      by_cases hp : p v0
      · simp [List.filter_cons, hp, dlookup]
      · simp [List.filter_cons, hp, dlookup, ih hnd.2 k0, hrest]
    · have hx0 : ¬ x = k0 := fun h => h0 h.symm
      by_cases hp : p v0 <;>
        simp [List.filter_cons, hp, dlookup, h0, hx0, ih hnd.2 x]

/-- Shared soundness/completeness facts about get_execution_order for
a dependency-closed definition with distinct node ids: the levels
repeat no id, contain only ids, sources of edges into a level sit in
strictly earlier levels, and under acyclicity every id occurs. -/
theorem geo_main (nodes : List WorkflowNode)
    (hnd : (nodeIds nodes).Nodup)
    (hdeps : ∀ n ∈ nodes, ∀ d ∈ n.dependencies, d ∈ nodeIds nodes) :
    (get_execution_order nodes).flatten.Nodup ∧
    (∀ x ∈ (get_execution_order nodes).flatten, x ∈ nodeIds nodes) ∧
    (∀ i (hi : i < (get_execution_order nodes).length),
      ∀ x ∈ (get_execution_order nodes).get ⟨i, hi⟩,
      ∀ e ∈ edgeList nodes, e.2 = x →
        ∃ j, ∃ (hj : j < (get_execution_order nodes).length),
          j < i ∧ e.1 ∈ (get_execution_order nodes).get ⟨j, hj⟩) ∧
    (∀ rank : String → Nat,
      (∀ n ∈ nodes, ∀ d ∈ n.dependencies, rank d < rank n.id) →
      ∀ x ∈ nodeIds nodes, x ∈ (get_execution_order nodes).flatten) := by
  have hedges : ∀ e ∈ edgeList nodes,
      e.1 ∈ nodeIds nodes ∧ e.2 ∈ nodeIds nodes := by
    intro e he
    obtain ⟨n, hn, h1, h2⟩ := mem_edgeList.1 he
    exact ⟨hdeps n hn e.1 h1,
      by rw [h2]; exact List.mem_map.2 ⟨n, hn, rfl⟩⟩
  have hinit : initInDegree nodes =
      nodes.map (fun n => (n.id, (0 : Int))) := by
    have := foldl_dset_fresh (0 : Int) nodes [] (by simp [dkeys]) hnd
    simpa [initInDegree] using this
  have hinitG : initGraph nodes =
      nodes.map (fun n => (n.id, ([] : List String))) := by
    have := foldl_dset_fresh ([] : List String) nodes [] (by simp [dkeys]) hnd
    simpa [initGraph] using this
  have hdeg : ∀ x, dlookup (buildMaps nodes).2 x =
      if x ∈ nodeIds nodes
      then some ((pendingInDegree (edgeList nodes) [] x : Int))
      else none := by
    intro x
    rw [buildMaps_eq_edgeFold, edgeFold_deg, hinit, lookup_map_const]
    by_cases hx : x ∈ nodeIds nodes
    · simp [hx, pend_nil]
    · simp [hx]
  have hgraph : ∀ x ∈ nodeIds nodes,
      dlookup (buildMaps nodes).1 x = some (targetsOf (edgeList nodes) x) := by
    intro x hx
    rw [buildMaps_eq_edgeFold, edgeFold_graph, hinitG, lookup_map_const]
    simp [hx]
  have hkeys2 : dkeys (buildMaps nodes).2 = nodeIds nodes := by
    rw [buildMaps_eq_edgeFold, (edgeFold_keys (edgeList nodes) _).2, hinit]
    simp [dkeys, nodeIds]
  have hkeysnd : (dkeys (buildMaps nodes).2).Nodup := by
    rw [hkeys2]; exact hnd
  have hcur0 : ∀ x,
      x ∈ ((buildMaps nodes).2.filter (fun p => p.2 = 0)).map Prod.fst ↔
      ∃ v, dlookup (buildMaps nodes).2 x = some v ∧ v = 0 := by
    intro x
    simpa using
      mem_filter_map_fst (fun v => decide (v = 0)) (buildMaps nodes).2
        hkeysnd x
  have hcur0nd :
      (((buildMaps nodes).2.filter (fun p => p.2 = 0)).map Prod.fst).Nodup :=
    ((List.filter_sublist _).map Prod.fst).nodup hkeysnd
  have inv0 : KahnInv (edgeList nodes) (nodeIds nodes) (buildMaps nodes).2
      (((buildMaps nodes).2.filter (fun p => p.2 = 0)).map Prod.fst) [] := by
    refine ⟨?_, ?_, ?_, ?_, ?_, ?_⟩
    · intro x hx
      rw [hdeg, if_neg hx]
    · simpa using hcur0nd
    · intro x hx
      simp only [List.nil_append] at hx
      obtain ⟨v, hv, _⟩ := (hcur0 x).1 hx
      by_contra hxids
      rw [hdeg, if_neg hxids] at hv
      simp at hv
    · intro x hx
      rw [hdeg, if_pos hx]
    · intro x hx
      simp only [List.nil_append] at hx
      obtain ⟨v, hv, hv0⟩ := (hcur0 x).1 hx
      by_cases hxids : x ∈ nodeIds nodes
      · rw [hdeg, if_pos hxids] at hv
        have : v = (pendingInDegree (edgeList nodes) [] x : Int) := by
          injection hv.symm
        omega
      · rw [hdeg, if_neg hxids] at hv
        simp at hv
    · intro x hxids hxe hxc
      by_contra h
      have hp0 : pendingInDegree (edgeList nodes) [] x = 0 := by omega
      exact hxc ((hcur0 x).2
        ⟨(pendingInDegree (edgeList nodes) [] x : Int),
          by rw [hdeg, if_pos hxids], by rw [hp0]; simp⟩)
  have hgeo : get_execution_order nodes =
      kahnLoop (buildMaps nodes).1 (nodes.length + 1) (buildMaps nodes).2
        (((buildMaps nodes).2.filter (fun p => p.2 = 0)).map Prod.fst) := rfl
  have hsound := kahnLoop_sound (edgeList nodes) (nodeIds nodes)
    (buildMaps nodes).1 hedges hgraph (nodes.length + 1)
    (buildMaps nodes).2
    (((buildMaps nodes).2.filter (fun p => p.2 = 0)).map Prod.fst) [] inv0
  obtain ⟨hndL, hsubL, hordL⟩ := hsound
  rw [← hgeo] at hndL hsubL hordL
  refine ⟨by simpa using hndL, hsubL, ?_, ?_⟩
  · intro i hi x hx e he h2
    rcases hordL i hi x hx e he h2 with h | ⟨j, hj, hji, hjm⟩
    · simp at h
    · exact ⟨j, hj, hji, hjm⟩
  · intro rank hacyc x hx
    have hrank : ∀ e ∈ edgeList nodes, rank e.1 < rank e.2 := by
      intro e he
      obtain ⟨n, hn, h1, h2⟩ := mem_edgeList.1 he
      rw [h2]
      exact hacyc n hn e.1 h1
    have hcomp := kahnLoop_complete (edgeList nodes) (nodeIds nodes)
      (buildMaps nodes).1 hedges hgraph rank hrank (nodes.length + 1)
      (buildMaps nodes).2
      (((buildMaps nodes).2.filter (fun p => p.2 = 0)).map Prod.fst) [] inv0
      (by simp [nodeIds])
    rw [← hgeo] at hcomp
    simpa using hcomp x hx

/-- Claim C3: for an acyclic, dependency-closed definition with
distinct node ids (acyclicity witnessed by a rank function on ids that
strictly increases along dependency edges), get_execution_order
produces levels whose concatenation contains every node id exactly
once, and every dependency of a node sits in a strictly
earlier-indexed level. -/
theorem c3_execution_levels (nodes : List WorkflowNode)
    (hnd : (nodeIds nodes).Nodup)
    (hdeps : ∀ n ∈ nodes, ∀ d ∈ n.dependencies, d ∈ nodeIds nodes)
    (rank : String → Nat)
    (hacyc : ∀ n ∈ nodes, ∀ d ∈ n.dependencies, rank d < rank n.id) :
    (get_execution_order nodes).flatten.Nodup ∧
    (∀ x, x ∈ (get_execution_order nodes).flatten ↔ x ∈ nodeIds nodes) ∧
    (∀ n ∈ nodes, ∀ d ∈ n.dependencies,
      ∀ i (hi : i < (get_execution_order nodes).length),
        n.id ∈ (get_execution_order nodes).get ⟨i, hi⟩ →
        ∃ j, ∃ (hj : j < (get_execution_order nodes).length),
          j < i ∧ d ∈ (get_execution_order nodes).get ⟨j, hj⟩) := by
  obtain ⟨h1, h2, h3, h4⟩ := geo_main nodes hnd hdeps
  refine ⟨h1, fun x => ⟨h2 x, h4 rank hacyc x⟩, ?_⟩
  intro n hn d hd i hi hx
  exact h3 i hi n.id hx (d, n.id)
    (mem_edgeList.2 ⟨n, hn, by simpa using hd, rfl⟩) rfl

/-- Witness for C3 at the concrete A/B/C DAG with an explicit rank
function. -/
theorem c3_witness :
    (get_execution_order dagABC).flatten.Nodup ∧
    ("C" ∈ (get_execution_order dagABC).flatten ↔ "C" ∈ nodeIds dagABC) :=
  ⟨(c3_execution_levels dagABC (by decide) (by decide) rankABC (by decide)).1,
   (c3_execution_levels dagABC (by decide) (by decide) rankABC
      (by decide)).2.1 "C"⟩

/-! ## Executor state facts (for the cycle behaviour) -/

theorem foldl_preserve {α σ β : Type} (f : σ → α → σ) (proj : σ → β)
    (h : ∀ s a, proj (f s a) = proj s) :
    ∀ (l : List α) (s : σ), proj (l.foldl f s) = proj s := by
  intro l
  induction l with
  | nil => intro s; rfl
  | cons a rest ih =>
    intro s
    rw [List.foldl_cons, ih, h]

/-- The context returned by _execute_single_node only has its
current_node field updated. -/
theorem execute_single_node_snd (be : Backend) (ctx : ExecContext)
    (node : WorkflowNode) :
    (execute_single_node be ctx node).2 =
      { ctx with current_node := some node.id } := by
  unfold execute_single_node
  by_cases h : check_condition be { ctx with current_node := some node.id } node
  · rcases hao : attemptOnce be { ctx with current_node := some node.id } node
      with ⟨res, c⟩
    cases res <;> simp [h, hao] <;> split_ifs <;> rfl
  · simp [h]

/-- The state, error info and global data of the context survive
_execute_parallel_group (only node_results and current_node change). -/
theorem execute_parallel_group_fields (be : Backend) (ctx : ExecContext)
    (gns : List WorkflowNode) :
    (execute_parallel_group be ctx gns).state = ctx.state ∧
    (execute_parallel_group be ctx gns).error_info = ctx.error_info ∧
    (execute_parallel_group be ctx gns).global_data = ctx.global_data := by
  unfold execute_parallel_group
  have h1 := foldl_preserve
    (fun (st : ExecContext × List (String × Except String PyVal)) n =>
      ((execute_single_node be st.1 n).2,
        st.2 ++ [(n.id, (execute_single_node be st.1 n).1.result)]))
    (fun st => (st.1.state, st.1.error_info, st.1.global_data))
    (by
      intro s a
      simp [execute_single_node_snd])
    (gns.filter (fun n => check_condition be ctx n)) (ctx, [])
  have h2 := foldl_preserve
    (fun (ctx : ExecContext) (p : String × Except String PyVal) =>
      match p.2 with
      | .ok r => { ctx with node_results := dset ctx.node_results p.1 r }
      | .error _ => ctx)
    (fun ctx => (ctx.state, ctx.error_info, ctx.global_data))
    (by
      intro s a
      rcases a with ⟨k, r | e⟩ <;> rfl)
  constructor
  · exact (congrArg (fun t => t.1) (h2 _ _)).trans
      (congrArg (fun t => t.1) h1)
  constructor
  · exact (congrArg (fun t => t.2.1) (h2 _ _)).trans
      (congrArg (fun t => t.2.1) h1)
  · exact (congrArg (fun t => t.2.2) (h2 _ _)).trans
      (congrArg (fun t => t.2.2) h1)

/-- The state and error info of the context survive a whole level. -/
theorem execute_level_fields (be : Backend) (nodes : List WorkflowNode)
    (ctx : ExecContext) (node_ids : List String) :
    (execute_level be nodes ctx node_ids).state = ctx.state ∧
    (execute_level be nodes ctx node_ids).error_info = ctx.error_info := by
  unfold execute_level
  have h1 := foldl_preserve
    (fun (ctx : ExecContext) (g : String × List WorkflowNode) =>
      execute_parallel_group be ctx g.2)
    (fun ctx => (ctx.state, ctx.error_info))
    (by
      intro s a
      obtain ⟨hs, he, _⟩ := execute_parallel_group_fields be s a.2
      rw [Prod.mk.injEq]
      exact ⟨hs, he⟩)
    (splitLevel (node_ids.filterMap (get_node_by_id nodes))).1 ctx
  have h2 := foldl_preserve
    (fun (ctx : ExecContext) (n : WorkflowNode) =>
      (execute_single_node be ctx n).2)
    (fun ctx => (ctx.state, ctx.error_info))
    (by
      intro s a
      simp [execute_single_node_snd])
    (splitLevel (node_ids.filterMap (get_node_by_id nodes))).2
  exact ⟨(congrArg (fun t => t.1) (h2 _)).trans (congrArg (fun t => t.1) h1),
    (congrArg (fun t => t.2) (h2 _)).trans (congrArg (fun t => t.2) h1)⟩

theorem runLevels_fields (be : Backend) (nodes : List WorkflowNode) :
    ∀ (levels : List (List String)) (ctx : ExecContext),
    (runLevels be nodes levels ctx).state = ctx.state ∧
    (runLevels be nodes levels ctx).error_info = ctx.error_info := by
  intro levels
  induction levels with
  | nil => intro ctx; exact ⟨rfl, rfl⟩
  | cons l rest ih =>
    intro ctx
    rw [runLevels]
    obtain ⟨hs, he⟩ := execute_level_fields be nodes ctx l
    split_ifs with hbreak
    · exact ⟨hs, he⟩
    · obtain ⟨hs2, he2⟩ := ih (execute_level be nodes ctx l)
      exact ⟨hs2.trans hs, he2.trans he⟩

/-- In this embedding nothing a level does can raise out of the gather
call and nothing sets PAUSED/CANCELLED, so execute always finishes
COMPLETED with the error info untouched. -/
theorem executeW_completed (be : Backend) (nodes : List WorkflowNode)
    (ctx0 : ExecContext) :
    (executeW be nodes ctx0).state = WorkflowState.completed ∧
    (executeW be nodes ctx0).error_info = ctx0.error_info := by
  unfold executeW
  obtain ⟨hs, he⟩ := runLevels_fields be nodes (get_execution_order nodes)
    { ctx0 with state := WorkflowState.running }
  rw [if_pos (by rw [hs])]
  exact ⟨rfl, he⟩

/-- Claim C4, counterexample: the two-node cycle A ↔ B passes
validate_dependencies, get_execution_order returns no levels — the
cyclic nodes are silently dropped — and execute raises nothing,
finishing COMPLETED with no error info. -/
theorem c4_counterexample :
    validate_dependencies dagCycle = true ∧
    get_execution_order dagCycle = [] ∧
    ("A" ∈ nodeIds dagCycle ∧
      "A" ∉ (get_execution_order dagCycle).flatten) ∧
    (executeW beOk dagCycle initContext).state = WorkflowState.completed ∧
    (executeW beOk dagCycle initContext).error_info = none := by
  refine ⟨by decide, by decide, ⟨by decide, by decide⟩, by decide, by decide⟩

/-- Claim C4 (amended): a dependency cycle is not detected or reported:
every node of a cyclic set (each member has an in-set dependency edge)
never reaches in-degree 0, so it is silently omitted from the returned
levels, and the executor raises no construction-time or scheduling-time
fault — it finishes COMPLETED with no error info recorded. -/
theorem c4_cycle_silently_dropped (nodes : List WorkflowNode)
    (hnd : (nodeIds nodes).Nodup)
    (hdeps : ∀ n ∈ nodes, ∀ d ∈ n.dependencies, d ∈ nodeIds nodes)
    (cyc : List String)
    (hcyc : ∀ x ∈ cyc, ∃ p ∈ cyc, (p, x) ∈ edgeList nodes) :
    (∀ x ∈ cyc, x ∉ (get_execution_order nodes).flatten) ∧
    (∀ be : Backend, (executeW be nodes initContext).state =
        WorkflowState.completed ∧
      (executeW be nodes initContext).error_info = none) := by
  obtain ⟨_, _, hord, _⟩ := geo_main nodes hnd hdeps
  refine ⟨?_, fun be => ⟨(executeW_completed be nodes initContext).1,
    (executeW_completed be nodes initContext).2⟩⟩
  have hkey : ∀ i (hi : i < (get_execution_order nodes).length),
      ∀ x ∈ cyc, x ∉ (get_execution_order nodes).get ⟨i, hi⟩ := by
    intro i
    induction i using Nat.strong_induction_on with
    | _ i ih =>
      intro hi x hxc hxl
      obtain ⟨p, hpc, hpe⟩ := hcyc x hxc
      obtain ⟨j, hj, hji, hjm⟩ := hord i hi x hxl (p, x) hpe rfl
      exact ih j hji hj p hpc hjm
  intro x hxc hxf
  obtain ⟨l, hl, hxl⟩ := List.mem_flatten.1 hxf
  obtain ⟨⟨i, hi⟩, hget⟩ := List.mem_iff_get.1 hl
  exact hkey i hi x hxc (by rw [hget]; exact hxl)

/-- Witness for the amended C4 at the concrete two-node cycle. -/
theorem c4_witness :
    (∀ x ∈ ["A", "B"], x ∉ (get_execution_order dagCycle).flatten) ∧
    (executeW beKeyErr dagCycle initContext).state =
      WorkflowState.completed ∧
    (executeW beKeyErr dagCycle initContext).error_info = none :=
  have h := c4_cycle_silently_dropped dagCycle (by decide) (by decide)
    ["A", "B"] (by decide)
  ⟨h.1, (h.2 beKeyErr).1, (h.2 beKeyErr).2⟩

end EvalManus
